import Mathlib

/-!
# Verification of the Hong Kong 97 graphics codec

Shallow embedding of the compression codec of this repository:
* `decompress_data` embeds `decompress_data` from `src/pydec4.py` (lines 36-119);
* `compress_data` embeds `compress_data` from `src/pyenc5.py` (lines 104-168);
* `compress_data4` embeds `compress_data` from `src/pyenc4.py` (lines 157-312).

Bytes are modelled as `Nat` (with explicit `% 256` where Python masks with
`& 0xFF`); Python's bitwise field extractions on masked values are rendered
arithmetically (`x & 0x03` as `x % 4`, `x >> 2` as `x / 4`, `a | b` as `a + b`
where the source ors together disjoint bit ranges).  Byte strings are
`List Nat`, Python's `bytearray` writes are `List.set`, fallible code returns
`Except String`.  Python `while` loops are rendered as fuel recursion with
fuel chosen at the call site to dominate the loop's (strictly decreasing)
measure; the fuel-exhausted branches coincide with the loop's exit result so
they are semantically inert on every reachable state.
-/

set_option maxHeartbeats 1000000
set_option maxRecDepth 100000

namespace HK97

/-- All entries of the list are bytes (Python `bytes` elements are `0..255`). -/
def isBytes (l : List Nat) : Prop := ∀ b ∈ l, b < 256

instance (l : List Nat) : Decidable (isBytes l) := by
  unfold isBytes; infer_instance

/-! ## Decoder (src/pydec4.py, `decompress_data`) -/

/-- The command-classification loop of `decompress_data` (pydec4.py lines 61-64):
`while True: new_carry = (temp >> 7) & 1; temp = ((temp << 1) & 0xFF) | carry;
carry = new_carry; if not carry: break; a_reg += 2`.  The loop is a 9-bit
rotation seeded with carry `0`, so it always breaks within 9 iterations;
callers pass fuel `16`. -/
def sjLoop : Nat → Nat → Nat → Nat → Nat
  | 0, _temp, _carry, a => a
  | fuel + 1, temp, carry, a =>
    let newCarry := temp / 128 % 2
    let temp2 := temp * 2 % 256 + carry
    if newCarry = 0 then a else sjLoop fuel temp2 newCarry (a + 2)

/-- The opcode classifier of `decompress_data` (pydec4.py lines 51-65): three
rotate-left-through-carry steps produce `first_jump`, and the counting loop
(`sjLoop`) produces `second_jump`. -/
def decodeJumps (cmd : Nat) : Nat × Nat :=
  let temp := cmd
  let carry := 0
  let newCarry := temp / 128 % 2
  let temp := temp * 2 % 256 + carry
  let carry := newCarry
  let newCarry2 := temp / 128 % 2
  let temp := temp * 2 % 256 + carry
  let carry := newCarry2
  let cmdStored := temp
  let temp := temp * 2 % 256 + carry
  let firstJump := temp % 4 * 2
  let secondJump := sjLoop 16 cmdStored 0 0
  (firstJump, secondJump)

/-- The copy loop of `decompress_data` (pydec4.py lines 110-115): for each of
`n` steps, write `0xFF` if the source index is negative and the byte already
present at the source index otherwise, then advance both cursors. -/
def copyLoop : Nat → Int → Nat → List Nat → List Nat × Nat
  | 0, _copySrc, outPtr, buf => (buf, outPtr)
  | n + 1, copySrc, outPtr, buf =>
    let b := if copySrc < 0 then 0xFF else buf.getD copySrc.toNat 0
    copyLoop n (copySrc + 1) (outPtr + 1) (buf.set outPtr b)

/-- The literal slice assignment of `decompress_data`
(`out_buffer[out_ptr:out_ptr+n] = stream[in_ptr:in_ptr+n]`, pydec4.py
lines 96 and 106), written element by element. -/
def litCopy (stream : List Nat) : Nat → Nat → Nat → List Nat → List Nat
  | _inPtr, 0, _outPtr, buf => buf
  | inPtr, n + 1, outPtr, buf =>
    litCopy stream (inPtr + 1) n (outPtr + 1) (buf.set outPtr (stream.getD inPtr 0))

/-- Specification helper: write the bytes `xs` into `buf` starting at
position `i` (one `List.set` per byte).  `litCopy` and the non-overlapping
case of `copyLoop` are proved equal to it. -/
def writeList : List Nat → Nat → List Nat → List Nat
  | buf, _i, [] => buf
  | buf, i, x :: xs => writeList (buf.set i x) (i + 1) xs

/-- The LongLiteral length computation of `decompress_data` (pydec4.py lines
100-104): `len_high = cmd & 3; temp_len = b1 + 0x11;
if temp_len > 0xFF: len_high += 1; length = (len_high << 8) | (temp_len & 0xFF)`. -/
def longLitLength (cmd b1 : Nat) : Nat :=
  let lenHigh := cmd % 4
  let tempLen := b1 + 0x11
  let lenHigh2 := if 0xFF < tempLen then lenHigh + 1 else lenHigh
  lenHigh2 * 256 + tempLen % 256

/-- One iteration of the decode loop of `decompress_data` (the body of the
`while` loop, pydec4.py lines 50-117, entered with the opcode byte available
at `inPtr`): decode one instruction and return the updated
`(in_ptr, out_ptr, out_buffer)`, or the fatal error the body raises. -/
def decompStep (stream : List Nat) (dsize : Nat) (inPtr outPtr : Nat) (buf : List Nat) :
    Except String (Nat × Nat × List Nat) :=
  let cmd := stream.getD inPtr 0
  let inPtr := inPtr + 1
  let fj := (decodeJumps cmd).1
  let sj := (decodeJumps cmd).2
  if fj = 0 then
    let length := cmd % 4 + 3
    let offset := cmd / 4
    let copySrc : Int := (outPtr : Int) - ((offset : Int) + 1)
    let r := copyLoop (min length (dsize - outPtr)) copySrc outPtr buf
    .ok (inPtr, r.2, r.1)
  else if fj = 2 then
    if stream.length ≤ inPtr then .error "Unexpected end of stream"
    else
      let length := cmd % 4 + 3
      let offset := cmd / 4 % 16 * 256 + stream.getD inPtr 0
      let inPtr := inPtr + 1
      let copySrc : Int := (outPtr : Int) - ((offset : Int) + 1)
      let r := copyLoop (min length (dsize - outPtr)) copySrc outPtr buf
      .ok (inPtr, r.2, r.1)
  else if fj = 4 then
    if stream.length ≤ inPtr then .error "Unexpected end of stream"
    else
      let length := cmd / 4 % 16 + 7
      let offset := cmd % 4 * 256 + stream.getD inPtr 0
      let inPtr := inPtr + 1
      let copySrc : Int := (outPtr : Int) - ((offset : Int) + 1)
      let r := copyLoop (min length (dsize - outPtr)) copySrc outPtr buf
      .ok (inPtr, r.2, r.1)
  else if fj = 6 then
    if sj = 0 then
      if stream.length ≤ inPtr then .error "Unexpected end of stream"
      else
        let b1 := stream.getD inPtr 0
        let inPtr := inPtr + 1
        if stream.length ≤ inPtr then .error "Unexpected end of stream"
        else
          let b2 := stream.getD inPtr 0
          let inPtr := inPtr + 1
          let lengthVal := cmd / 16 % 2 * 256 + b1 / 16 % 16 * 16 + cmd % 16
          let length := lengthVal + 7
          let offset := b1 % 16 * 256 + b2
          let copySrc : Int := (outPtr : Int) - ((offset : Int) + 1)
          let r := copyLoop (min length (dsize - outPtr)) copySrc outPtr buf
          .ok (inPtr, r.2, r.1)
    else if sj = 2 then
      let length := cmd % 16 + 1
      let actual := min length (min (dsize - outPtr) (stream.length - inPtr))
      let buf := litCopy stream inPtr actual outPtr buf
      .ok (inPtr + actual, outPtr + actual, buf)
    else if 4 ≤ sj then
      if stream.length ≤ inPtr then .error "Unexpected end of stream"
      else
        let b1 := stream.getD inPtr 0
        let inPtr := inPtr + 1
        let length := longLitLength cmd b1
        let actual := min length (min (dsize - outPtr) (stream.length - inPtr))
        let buf := litCopy stream inPtr actual outPtr buf
        .ok (inPtr + actual, outPtr + actual, buf)
    else .ok (inPtr, outPtr, buf)
  else .error "Unknown command type"

/-- The main decode loop of `decompress_data` (pydec4.py lines 48-117),
one fuel per iteration of the `while` loop, the body being `decompStep`.
Each iteration consumes at least one input byte, so fuel
`stream.length + 1` (as passed by `decompress_data`) always suffices; the
fuel-0 branch returns the same result as the input-exhausted break. -/
def decompLoop (stream : List Nat) (dsize : Nat) :
    Nat → Nat → Nat → List Nat → Except String (List Nat × Nat)
  | 0, inPtr, _outPtr, buf => .ok (buf, inPtr)
  | fuel + 1, inPtr, outPtr, buf =>
    if outPtr < dsize then
      if stream.length ≤ inPtr then .ok (buf, inPtr)
      else
        match decompStep stream dsize inPtr outPtr buf with
        | .ok s => decompLoop stream dsize fuel s.1 s.2.1 s.2.2
        | .error e => .error e
    else .ok (buf, inPtr)

/-- `decompress_data` from src/pydec4.py (lines 36-119).  Returns the
decompressed buffer (truncated to the declared size) and the reported
compressed size (`in_ptr + 2`). -/
def decompress_data (compressed : List Nat) : Except String (List Nat × Nat) :=
  if compressed.length < 2 then .error "Compressed data too short for a size header."
  else
    let decompressedSize := compressed.getD 0 0 + compressed.getD 1 0 * 256
    if decompressedSize = 0 then .ok ([], 2)
    else
      let stream := compressed.drop 2
      match decompLoop stream decompressedSize (stream.length + 1) 0 0
          (List.replicate decompressedSize 0) with
      | .ok (buf, inPtr) => .ok (buf.take decompressedSize, inPtr + 2)
      | .error e => .error e

/-! ## Encoder (src/pyenc5.py, `compress_data`) -/

/-- The inner chunking loop of `flush_literals` (pyenc5.py lines 109-120,
identical in pyenc4.py lines 173-197): emit `0xE0 | ((chunk_size - 1) & 0x0F)`
followed by the chunk, for successive chunks of at most 16 bytes.  Fuel
recursion; `flushLiterals` passes the list length, which dominates the number
of (at-least-one-byte) chunks. -/
def flushLitAux : Nat → List Nat → List Nat
  | 0, _ => []
  | _fuel + 1, [] => []
  | fuel + 1, l@(_ :: _) =>
    let chunkSize := min 16 l.length
    (0xE0 + (chunkSize - 1) % 16) :: (l.take chunkSize ++ flushLitAux fuel (l.drop chunkSize))

/-- The compressed bytes appended by `flush_literals` for a pending literal
buffer `l`; the shadow output buffer is extended with `l` itself. -/
def flushLiterals (l : List Nat) : List Nat := flushLitAux l.length l

/-- Whether `pat` occurs in `buf` at index `i` (entirely inside `buf`). -/
def matchAt (buf pat : List Nat) (i : Nat) : Bool :=
  (buf.drop i).take pat.length == pat

/-- Descending scan implementing Python `rfind`: try indices `i, i-1, …, start`
and return the first (hence highest) occurrence. -/
def rfindDesc (buf pat : List Nat) (start : Nat) : Nat → Nat → Option Nat
  | 0, _i => none
  | fuel + 1, i =>
    if i < start then none
    else if matchAt buf pat i then some i
    else
      match i with
      | 0 => none
      | j + 1 => rfindDesc buf pat start fuel j

/-- Python `buf.rfind(pat, start, stop)`: the highest index `i` with
`start ≤ i`, `i + pat.length ≤ stop` and `pat` occurring in `buf` at `i`,
or `none` (Python `-1`). -/
def listRfind (buf pat : List Nat) (start stop : Nat) : Option Nat :=
  if start + pat.length ≤ stop then
    rfindDesc buf pat start (stop - pat.length + 1) (stop - pat.length)
  else none

/-- The match-extension loop shared by both compressors (pyenc5.py lines
131-133, pyenc4.py lines 214-218): `while match_len < max_len and
output_buffer[check_pos + match_len] == data[pos + match_len]: match_len += 1`.
Fuel recursion; callers pass `maxLen` as fuel, which dominates the iteration
count, and the fuel-0 result coincides with the guard-failure result. -/
def extLoop (out data : List Nat) (checkPos pos maxLen : Nat) : Nat → Nat → Nat
  | 0, matchLen => matchLen
  | fuel + 1, matchLen =>
    if matchLen < maxLen && (out.getD (checkPos + matchLen) 0 == data.getD (pos + matchLen) 0)
    then extLoop out data checkPos pos maxLen fuel (matchLen + 1)
    else matchLen

/-- The `rfind`-based candidate loop of pyenc5.py (lines 126-137): repeatedly
`rfind` the 3-byte pattern below the previous hit, extend each hit, and keep
the strictly best (length, position); stop early at length 263.  `stop`
strictly decreases (by at least 3) every iteration, so fuel `out.length + 1`
(as passed by `matchSearch5`) suffices. -/
def searchLoop5 (out data pat : List Nat) (pos searchStart : Nat) :
    Nat → Nat → Nat × Int → Nat × Int
  | 0, _stop, best => best
  | fuel + 1, stop, best =>
    if searchStart < stop then
      match listRfind out pat searchStart stop with
      | none => best
      | some checkPos =>
        let maxLen := min 263 (min (data.length - pos) (out.length - checkPos))
        let matchLen := extLoop out data checkPos pos maxLen maxLen 3
        if best.1 < matchLen then
          if 263 ≤ matchLen then (matchLen, (checkPos : Int))
          else searchLoop5 out data pat pos searchStart fuel checkPos (matchLen, (checkPos : Int))
        else searchLoop5 out data pat pos searchStart fuel checkPos best
    else best

/-- The match search of pyenc5.py `compress_data` (lines 122-137): search the
last 4095 bytes of the shadow output buffer for the longest run equal to the
upcoming source bytes.  Returns `(best_match_len, best_match_pos)`, with
position `-1` when nothing was found (as in the source). -/
def matchSearch5 (out data : List Nat) (pos : Nat) : Nat × Int :=
  if 3 ≤ out.length ∧ pos + 3 ≤ data.length then
    let searchStart := out.length - 4095
    let pat := (data.drop pos).take 3
    searchLoop5 out data pat pos searchStart (out.length + 1) out.length (0, -1)
  else (0, -1)

/-- Specification predicate: a `(best_match_len, best_match_pos)` result is
sound when, if usable (length ≥ 3), its position is a genuine in-range match
of the upcoming source bytes of the stated length, the length is capped at
263 and the match does not run past the end of the data. -/
def SoundBest (out data : List Nat) (pos : Nat) (best : Nat × Int) : Prop :=
  3 ≤ best.1 →
    0 ≤ best.2 ∧ best.2.toNat + best.1 ≤ out.length ∧ best.1 ≤ 263 ∧
    pos + best.1 ≤ data.length ∧
    ∀ i < best.1, out.getD (best.2.toNat + i) 0 = data.getD (pos + i) 0

/-- The admissibility test of both compressors (pyenc5.py lines 140-142,
pyenc4.py lines 236-242) on `(best_match_len, final_offset)`. -/
def canBeEncoded (bestMatchLen finalOffset : Nat) : Bool :=
  (bestMatchLen ≤ 6 && finalOffset ≤ 1023) ||
  (7 ≤ bestMatchLen && bestMatchLen ≤ 22 && finalOffset ≤ 1023) ||
  (7 ≤ bestMatchLen && bestMatchLen ≤ 263 && finalOffset ≤ 4095)

/-- The copy-emission chain shared by both compressors (pyenc5.py lines
146-160, pyenc4.py lines 258-283): pick the first applicable copy form and
produce its bytes.  Bit fields are rendered arithmetically:
`(x & 0x03)` is `x % 4`, `(x >> 8) & 0x0F` is `x / 256 % 16`,
`x & 0xF0` is `x / 16 % 16 * 16`, and disjoint `|` is `+`. -/
def emitCopy (bestMatchLen offset : Nat) : List Nat :=
  if bestMatchLen ≤ 6 && offset ≤ 15 then
    [offset * 4 + (bestMatchLen - 3) % 4]
  else if bestMatchLen ≤ 6 && offset ≤ 1023 then
    [0x40 + (bestMatchLen - 3) % 4 + offset / 256 % 16 * 4, offset % 256]
  else if bestMatchLen ≤ 22 && offset ≤ 1023 then
    [0x80 + (bestMatchLen - 7) % 16 * 4 + offset / 256 % 4, offset % 256]
  else if bestMatchLen ≤ 263 && offset ≤ 4095 then
    let lengthVal := bestMatchLen - 7
    let cmd := 0xC0 + lengthVal % 16 + (if 256 ≤ lengthVal then 0x10 else 0)
    [cmd, lengthVal / 16 % 16 * 16 + offset / 256 % 16, offset % 256]
  else []

/-- The shadow-buffer extension after a copy (pyenc5.py lines 161-162,
pyenc4.py lines 286-288): append `n` bytes one at a time, each read from the
evolving buffer (so a source range reaching into the appended bytes sees
them). -/
def selfExtend : List Nat → Nat → Nat → List Nat
  | out, _src, 0 => out
  | out, src, n + 1 => selfExtend (out ++ [out.getD src 0]) (src + 1) n

/-- One literal step of the compressor loop (pyenc5.py lines 165-166,
pyenc4.py lines 295-300): buffer the current byte and flush when the buffer
reaches 16 bytes.  Returns the new `(compressed, output_buffer,
literal_buffer)`. -/
def litStep (data : List Nat) (pos : Nat) (compressed out lit : List Nat) :
    List Nat × List Nat × List Nat :=
  let lit := lit ++ [data.getD pos 0]
  if 16 ≤ lit.length then (compressed ++ flushLiterals lit, out ++ lit, [])
  else (compressed, out, lit)

/-- Specification checker: the byte list is a well-formed sequence of
ShortLiteral instructions (opcode `0xE0..0xEF`, each followed by its
`(opcode & 0x0F) + 1` raw bytes).  Fuel recursion on the list length. -/
def litOnlyAux : Nat → List Nat → Bool
  | 0, l => l.isEmpty
  | _fuel + 1, [] => true
  | fuel + 1, c :: rest =>
    if 0xE0 ≤ c && c ≤ 0xEF && c - 0xE0 + 1 ≤ rest.length then
      litOnlyAux fuel (rest.drop (c - 0xE0 + 1))
    else false

/-- The byte list consists only of ShortLiteral instructions. -/
def litOnly (l : List Nat) : Bool := litOnlyAux l.length l

/-- The main loop of pyenc5.py `compress_data` (lines 121-167), one fuel per
iteration.  `pos` strictly increases each iteration, so fuel
`data.length + 1` (as passed by `compress_data`) suffices; the fuel-0 branch
returns the loop-exit result (final literal flush). -/
def encLoop (data : List Nat) : Nat → Nat → List Nat → List Nat → List Nat → List Nat
  | 0, _pos, compressed, _out, lit => compressed ++ flushLiterals lit
  | fuel + 1, pos, compressed, out, lit =>
    if pos < data.length then
      let best := matchSearch5 out data pos
      if 3 ≤ best.1 then
        let bestPos := best.2.toNat
        let finalOffset := out.length + lit.length - bestPos - 1
        if canBeEncoded best.1 finalOffset then
          let compressed := compressed ++ flushLiterals lit
          let out := out ++ lit
          let offset := out.length - bestPos - 1
          let compressed := compressed ++ emitCopy best.1 offset
          let out := selfExtend out (out.length - offset - 1) best.1
          encLoop data fuel (pos + best.1) compressed out []
        else
          let s := litStep data pos compressed out lit
          encLoop data fuel (pos + 1) s.1 s.2.1 s.2.2
      else
        let s := litStep data pos compressed out lit
        encLoop data fuel (pos + 1) s.1 s.2.1 s.2.2
    else compressed ++ flushLiterals lit

/-- `compress_data` from src/pyenc5.py (lines 104-168): 2-byte little-endian
size header followed by the emitted opcode stream. -/
def compress_data (data : List Nat) : Except String (List Nat) :=
  if 0xFFFF < data.length then .error "Data too large to compress"
  else .ok (encLoop data (data.length + 1) 0 [data.length % 256, data.length / 256] [] [])

/-! ## The pyenc4.py encoder (src/pyenc4.py, `compress_data`) -/

/-- The linear-scan candidate loop of pyenc4.py (lines 208-227):
`for check_pos in range(len(output_buffer) - 1, search_start - 1, -1)`, with a
first-byte quick check, extension from 0, strict-improvement update, and early
exit at length 263. -/
def searchLoop4 (out data : List Nat) (pos searchStart : Nat) :
    Nat → Nat → Nat × Int → Nat × Int
  | 0, _i, best => best
  | fuel + 1, i, best =>
    if out.getD i 0 == data.getD pos 0 then
      let maxLen := min 263 (min (data.length - pos) (out.length - i))
      let matchLen := extLoop out data i pos maxLen maxLen 0
      if best.1 < matchLen then
        if 263 ≤ matchLen then (matchLen, (i : Int))
        else if searchStart < i then
          searchLoop4 out data pos searchStart fuel (i - 1) (matchLen, (i : Int))
        else (matchLen, (i : Int))
      else if searchStart < i then searchLoop4 out data pos searchStart fuel (i - 1) best
      else best
    else if searchStart < i then searchLoop4 out data pos searchStart fuel (i - 1) best
    else best

/-- The match search of pyenc4.py `compress_data` (lines 199-227). -/
def matchSearch4 (out data : List Nat) (pos : Nat) : Nat × Int :=
  if 3 ≤ out.length ∧ pos + 3 ≤ data.length then
    let searchStart := out.length - 4095
    searchLoop4 out data pos searchStart out.length (out.length - 1) (0, -1)
  else (0, -1)

/-- The main loop of pyenc4.py `compress_data` (lines 199-302): identical to
`encLoop` except for the match search (pyenc4's flush, admissibility test,
emission chain and shadow extension, lines 173-300, are byte-for-byte the
code embedded by `flushLiterals`, `canBeEncoded`, `emitCopy`, `selfExtend`
and `litStep`). -/
def encLoop4 (data : List Nat) : Nat → Nat → List Nat → List Nat → List Nat → List Nat
  | 0, _pos, compressed, _out, lit => compressed ++ flushLiterals lit
  | fuel + 1, pos, compressed, out, lit =>
    if pos < data.length then
      let best := matchSearch4 out data pos
      if 3 ≤ best.1 then
        let bestPos := best.2.toNat
        let finalOffset := out.length + lit.length - bestPos - 1
        if canBeEncoded best.1 finalOffset then
          let compressed := compressed ++ flushLiterals lit
          let out := out ++ lit
          let offset := out.length - bestPos - 1
          let compressed := compressed ++ emitCopy best.1 offset
          let out := selfExtend out (out.length - offset - 1) best.1
          encLoop4 data fuel (pos + best.1) compressed out []
        else
          let s := litStep data pos compressed out lit
          encLoop4 data fuel (pos + 1) s.1 s.2.1 s.2.2
      else
        let s := litStep data pos compressed out lit
        encLoop4 data fuel (pos + 1) s.1 s.2.1 s.2.2
    else compressed ++ flushLiterals lit

/-- `compress_data` from src/pyenc4.py (lines 157-312). -/
def compress_data4 (data : List Nat) : Except String (List Nat) :=
  if 0xFFFF < data.length then .error "Data too large to compress (max 65535 bytes)"
  else .ok (encLoop4 data (data.length + 1) 0 [data.length % 256, data.length / 256] [] [])

/-- A 20-byte input on which the two compressors commit to different matches:
after the first 16 bytes are flushed as literals, the trailing `aaaa` matches
the leading `aaaa`; pyenc4's linear scan finds the length-4 match at
position 0, while pyenc5's `rfind` loop, having found the occurrence at
position 1, restricts the next search to end strictly before it and so never
examines the overlapping occurrence at position 0. -/
def divergingInput : List Nat :=
  [97, 97, 97, 97, 98, 99, 100, 101, 102, 103, 104, 105, 106, 107, 108, 109, 97, 97, 97, 97]

end HK97

deriving instance DecidableEq for Except

namespace HK97

/-! ## Basic facts about the opcode classifier -/

/-- `first_jump` is twice the top two bits of the command byte. -/
theorem decodeJumps_fst : ∀ cmd < 256, (decodeJumps cmd).1 = cmd / 64 * 2 := by decide

/-- Command bytes `0xC0-0xDF` classify as ExtCopy (`first_jump = 6`,
`second_jump = 0`). -/
theorem decodeJumps_extCopy : ∀ cmd < 224, 192 ≤ cmd → decodeJumps cmd = (6, 0) := by decide

/-- Command bytes `0xE0-0xEF` classify as ShortLiteral (`first_jump = 6`,
`second_jump = 2`). -/
theorem decodeJumps_shortLit : ∀ cmd < 240, 224 ≤ cmd → decodeJumps cmd = (6, 2) := by decide

/-- Command bytes `0xF0-0xFF` classify as LongLiteral (`first_jump = 6`,
`second_jump ≥ 4`). -/
theorem decodeJumps_longLit :
    ∀ cmd < 256, 240 ≤ cmd → (decodeJumps cmd).1 = 6 ∧ 4 ≤ (decodeJumps cmd).2 := by decide

/-! ## Buffer-update helper lemmas -/

theorem copyLoop_snd (n : Nat) :
    ∀ (src : Int) (outp : Nat) (buf : List Nat), (copyLoop n src outp buf).2 = outp + n := by
  induction n with
  | zero => intro src outp buf; simp [copyLoop]
  | succ m ih =>
    intro src outp buf
    show (copyLoop m (src + 1) (outp + 1) _).2 = _
    rw [ih]; omega

theorem copyLoop_length (n : Nat) :
    ∀ (src : Int) (outp : Nat) (buf : List Nat),
      (copyLoop n src outp buf).1.length = buf.length := by
  induction n with
  | zero => intro src outp buf; simp [copyLoop]
  | succ m ih =>
    intro src outp buf
    show (copyLoop m (src + 1) (outp + 1) _).1.length = _
    rw [ih]; simp

theorem litCopy_length (stream : List Nat) (n : Nat) :
    ∀ (inp outp : Nat) (buf : List Nat),
      (litCopy stream inp n outp buf).length = buf.length := by
  induction n with
  | zero => intro inp outp buf; simp [litCopy]
  | succ m ih =>
    intro inp outp buf
    show (litCopy stream (inp + 1) m (outp + 1) _).length = _
    rw [ih]; simp

/-- Positions below the write cursor are untouched by the copy loop. -/
theorem copyLoop_getD_lt (n : Nat) :
    ∀ (src : Int) (outp : Nat) (buf : List Nat) (k : Nat), k < outp →
      (copyLoop n src outp buf).1.getD k 0 = buf.getD k 0 := by
  induction n with
  | zero => intro src outp buf k _; simp [copyLoop]
  | succ m ih =>
    intro src outp buf k hk
    show (copyLoop m (src + 1) (outp + 1) _).1.getD k 0 = _
    rw [ih _ _ _ _ (by omega)]
    simp [List.getD_eq_getElem?_getD, List.getElem?_set_ne (by omega : outp ≠ k)]

/-- The copy loop splits into a prefix of `j` steps followed by the rest. -/
theorem copyLoop_add (j : Nat) :
    ∀ (m : Nat) (src : Int) (outp : Nat) (buf : List Nat),
      copyLoop (j + m) src outp buf =
        copyLoop m (src + j) (outp + j) (copyLoop j src outp buf).1 := by
  induction j with
  | zero => intro m src outp buf; simp [copyLoop]
  | succ i ih =>
    intro m src outp buf
    have h1 : i + 1 + m = i + m + 1 := by omega
    rw [h1]
    show copyLoop (i + m + 1) src outp buf = _
    show copyLoop (i + m) (src + 1) (outp + 1) _ = _
    rw [ih]
    have h2 : src + 1 + (i : Int) = src + (i + 1 : Nat) := by push_cast; ring
    have h3 : outp + 1 + i = outp + (i + 1) := by omega
    rw [h2, h3]
    rfl

/-- What the copy loop writes: position `outp + j` receives the sentinel
`0xFF` when the source index `src + j` is negative, and otherwise the byte at
`src + j` of the buffer as it stood after the first `j` steps of this same
instruction. -/
theorem copyLoop_writes (n : Nat) :
    ∀ (src : Int) (outp : Nat) (buf : List Nat), outp + n ≤ buf.length →
      ∀ j < n, (copyLoop n src outp buf).1.getD (outp + j) 0 =
        if src + j < 0 then 255 else (copyLoop j src outp buf).1.getD (src + j).toNat 0 := by
  induction n with
  | zero => intro src outp buf _ j hj; omega
  | succ m ih =>
    intro src outp buf hlen j hj
    have hstep : copyLoop (m + 1) src outp buf =
        copyLoop m (src + 1) (outp + 1)
          (buf.set outp (if src < 0 then 255 else buf.getD src.toNat 0)) := rfl
    match j with
    | 0 =>
      rw [hstep, copyLoop_getD_lt m _ _ _ _ (by omega)]
      have hset : (buf.set outp (if src < 0 then 255 else buf.getD src.toNat 0)).getD (outp + 0) 0
          = if src < 0 then 255 else buf.getD src.toNat 0 := by
        simp [List.getD_eq_getElem?_getD, List.getElem?_set_self (by omega : outp < buf.length)]
      rw [hset]
      simp [copyLoop]
    | k + 1 =>
      rw [hstep]
      have hlen2 : (outp + 1) + m ≤
          (buf.set outp (if src < 0 then 255 else buf.getD src.toNat 0)).length := by
        simp; omega
      have := ih (src + 1) (outp + 1)
        (buf.set outp (if src < 0 then 255 else buf.getD src.toNat 0)) hlen2 k (by omega)
      have harith1 : outp + (k + 1) = (outp + 1) + k := by omega
      have harith2 : src + ((k : Nat) + 1 : Nat) = (src + 1) + (k : Nat) := by push_cast; ring
      rw [harith1, harith2, this]
      have hpre : copyLoop (k + 1) src outp buf =
          copyLoop k (src + 1) (outp + 1)
            (buf.set outp (if src < 0 then 255 else buf.getD src.toNat 0)) := rfl
      rw [hpre]

/-- One decode step never changes the length of the output buffer. -/
theorem decompStep_length (stream : List Nat) (dsize inPtr outPtr : Nat) (buf : List Nat)
    (s : Nat × Nat × List Nat) (h : decompStep stream dsize inPtr outPtr buf = .ok s) :
    s.2.2.length = buf.length := by
  simp only [decompStep] at h
  repeat' split at h
  all_goals
    first
    | (cases h; simp [copyLoop_length, litCopy_length])
    | (simp at h)

/-- The decode loop never changes the length of the output buffer. -/
theorem decompLoop_length (stream : List Nat) (dsize : Nat) :
    ∀ (fuel inPtr outPtr : Nat) (buf : List Nat) (res : List Nat × Nat),
      decompLoop stream dsize fuel inPtr outPtr buf = .ok res →
      res.1.length = buf.length := by
  intro fuel
  induction fuel with
  | zero =>
    intro inp outp buf res h
    simp only [decompLoop] at h
    cases h; rfl
  | succ f ih =>
    intro inp outp buf res h
    simp only [decompLoop] at h
    split at h
    · split at h
      · cases h; rfl
      · split at h
        next s hs => exact (ih _ _ _ _ h).trans (decompStep_length _ _ _ _ _ _ hs)
        next e hs => simp at h
    · cases h; rfl

/-- C3: on success the decompressed buffer has exactly the length declared in
the 2-byte little-endian header. -/
theorem decompress_data_length (compressed : List Nat) (res : List Nat × Nat)
    (h : decompress_data compressed = .ok res) :
    res.1.length = compressed.getD 0 0 + compressed.getD 1 0 * 256 := by
  simp only [decompress_data] at h
  split at h
  · simp at h
  · split at h
    next hz =>
      cases h
      simpa using hz.symm
    next hz =>
      split at h
      next buf inPtr heq =>
        cases h
        have hlen := decompLoop_length _ _ _ _ _ _ _ heq
        simp only [List.length_replicate] at hlen
        simp [List.length_take, hlen]
      next e heq => simp at h

/-- Witness for `decompress_data_length` at the concrete stream `[2, 0]`
(declared size 2, no instruction bytes). -/
theorem decompress_data_length_witness :
    (((([0, 0] : List Nat), 2) : List Nat × Nat)).1.length =
      ([2, 0] : List Nat).getD 0 0 + ([2, 0] : List Nat).getD 1 0 * 256 :=
  decompress_data_length [2, 0] ([0, 0], 2) (by rfl)

/-- C2: a copy whose computed source index is negative writes the sentinel
byte `0xFF` (255) at each out-of-range position — the loop is total, nothing
is raised — and the source index advances by one per byte, so a position at
or past index 0 is copied from the buffer as already produced by the earlier
steps of the same instruction; concretely, a stream whose first instruction
is a ShortCopy with offset 1 at output position 0 decodes to all-`0xFF`. -/
theorem copyLoop_openbus (n : Nat) (copySrc : Int) (outPtr : Nat) (buf : List Nat)
    (_hneg : copySrc < 0) (hlen : outPtr + n ≤ buf.length) :
    (∀ j < n, (copyLoop n copySrc outPtr buf).1.getD (outPtr + j) 0 =
        if copySrc + j < 0 then 255
        else (copyLoop j copySrc outPtr buf).1.getD (copySrc + j).toNat 0) ∧
    (copyLoop n copySrc outPtr buf).2 = outPtr + n ∧
    decompress_data [3, 0, 4] = .ok ([255, 255, 255], 3) :=
  ⟨copyLoop_writes n copySrc outPtr buf hlen, copyLoop_snd n copySrc outPtr buf, by rfl⟩

/-- Witness for `copyLoop_openbus`: three bytes copied with source index
starting at `-2` into a zeroed 3-byte buffer. -/
theorem copyLoop_openbus_witness :
    (∀ j < 3, (copyLoop 3 (-2) 0 [0, 0, 0]).1.getD (0 + j) 0 =
        if (-2 : Int) + j < 0 then 255
        else (copyLoop j (-2) 0 [0, 0, 0]).1.getD ((-2 : Int) + j).toNat 0) ∧
    (copyLoop 3 (-2) 0 [0, 0, 0]).2 = 0 + 3 ∧
    decompress_data [3, 0, 4] = .ok ([255, 255, 255], 3) :=
  copyLoop_openbus 3 (-2) 0 [0, 0, 0] (by decide) (by decide)

/-- C4: a copy whose source range overlaps the bytes being written (offset
smaller than length) reproduces the repeating pattern: position `outPtr + j`
receives the original buffer byte at `copySrc + j` while that index is below
`outPtr`, and otherwise the byte this same instruction wrote at `copySrc + j`;
in particular, with exactly one byte `A` (0x41) already output, a copy with
offset 0 and length 10 appends ten `A` bytes. -/
theorem copyLoop_selfoverlap (n copySrc outPtr : Nat) (buf : List Nat)
    (hsrc : copySrc < outPtr) (hlen : outPtr + n ≤ buf.length) :
    (∀ j < n, (copyLoop n (copySrc : Int) outPtr buf).1.getD (outPtr + j) 0 =
        if copySrc + j < outPtr then buf.getD (copySrc + j) 0
        else (copyLoop n (copySrc : Int) outPtr buf).1.getD (copySrc + j) 0) ∧
    decompress_data [11, 0, 0xE0, 0x41, 0x8C, 0x00] = .ok (List.replicate 11 65, 6) := by
  refine ⟨fun j hj => ?_, by rfl⟩
  have hw := copyLoop_writes n (copySrc : Int) outPtr buf hlen j hj
  have hnn : ¬((copySrc : Int) + j < 0) := by omega
  rw [if_neg hnn] at hw
  have htn : ((copySrc : Int) + j).toNat = copySrc + j := by omega
  rw [htn] at hw
  by_cases hcase : copySrc + j < outPtr
  · rw [if_pos hcase, hw, copyLoop_getD_lt j _ _ _ _ hcase]
  · rw [if_neg hcase, hw]
    -- the read lands inside this instruction's own output, written at step
    -- `k = copySrc + j - outPtr < j` and untouched afterwards
    have hk : copySrc + j = outPtr + (copySrc + j - outPtr) := by omega
    have hklt : copySrc + j - outPtr < j := by omega
    have hdec := copyLoop_add j (n - j) (copySrc : Int) outPtr buf
    have hjn : j + (n - j) = n := by omega
    rw [hjn] at hdec
    rw [hdec, hk,
      copyLoop_getD_lt (n - j) _ _ _ (outPtr + (copySrc + j - outPtr)) (by omega)]

/-- Witness for `copyLoop_selfoverlap`: one byte `A` in an 11-byte buffer,
copy of length 10 with source index 0 from write position 1. -/
theorem copyLoop_selfoverlap_witness :
    (∀ j < 10, (copyLoop 10 ((0 : Nat) : Int) 1 [65, 0, 0, 0, 0, 0, 0, 0, 0, 0, 0]).1.getD
          (1 + j) 0 =
        if 0 + j < 1 then ([65, 0, 0, 0, 0, 0, 0, 0, 0, 0, 0] : List Nat).getD (0 + j) 0
        else (copyLoop 10 ((0 : Nat) : Int) 1 [65, 0, 0, 0, 0, 0, 0, 0, 0, 0, 0]).1.getD
          (0 + j) 0) ∧
    decompress_data [11, 0, 0xE0, 0x41, 0x8C, 0x00] = .ok (List.replicate 11 65, 6) :=
  copyLoop_selfoverlap 10 0 1 [65, 0, 0, 0, 0, 0, 0, 0, 0, 0, 0] (by decide) (by decide)

/-- C7 counterexample: the LongLiteral opcode `0xF3` with extra byte `0xFF`
decodes to literal length 1040, outside the claimed range 17..273 (the two
carry bits of `cmd & 3` contribute up to `3 * 256`). -/
theorem longLitLength_out_of_claimed_range :
    (decodeJumps 0xF3).1 = 6 ∧ 4 ≤ (decodeJumps 0xF3).2 ∧
    longLitLength 0xF3 0xFF = 1040 ∧ ¬(longLitLength 0xF3 0xFF ≤ 273) := by decide

/-- C7 amended: for a LongLiteral opcode the decoded literal length equals
`0x11 + extra1` with the carry folded into the top bits taken from `cmd & 3`,
that is `(cmd % 4) * 256 + 0x11 + extra1`; it always lies in the range
17..1040 (not 17..273: the claimed upper bound holds only when `cmd % 4 = 0`
would contribute nothing, yet `cmd % 4` ranges over 0..3). -/
theorem longLitLength_formula (cmd b1 : Nat) (hb : b1 < 256) :
    longLitLength cmd b1 = cmd % 4 * 256 + (17 + b1) ∧
    17 ≤ longLitLength cmd b1 ∧
    longLitLength cmd b1 ≤ 1040 := by
  simp only [longLitLength]
  split <;> omega

/-- Witness for `longLitLength_formula` at `cmd = 0xF3`, `extra1 = 0xFF`. -/
theorem longLitLength_formula_witness :
    longLitLength 0xF3 0xFF = 0xF3 % 4 * 256 + (17 + 0xFF) ∧
    17 ≤ longLitLength 0xF3 0xFF ∧
    longLitLength 0xF3 0xFF ≤ 1040 :=
  longLitLength_formula 0xF3 0xFF (by decide)

/-- C9: compressing the empty input yields exactly the two zero header bytes,
and decompressing any stream whose declared size is 0 yields the empty output
with reported compressed size 2, reading no instruction bytes. -/
theorem empty_input_roundtrip :
    compress_data [] = .ok [0, 0] ∧ decompress_data [0, 0] = .ok ([], 2) ∧
    ∀ rest : List Nat, decompress_data (0 :: 0 :: rest) = .ok ([], 2) := by
  refine ⟨by rfl, by rfl, fun rest => ?_⟩
  simp [decompress_data]

/-- Witness for `empty_input_roundtrip`: trailing junk after a zero-size
header is ignored. -/
theorem empty_input_roundtrip_witness :
    decompress_data (0 :: 0 :: [9, 9, 9]) = .ok ([], 2) :=
  empty_input_roundtrip.2.2 [9, 9, 9]

/-- C10 counterexample: on `divergingInput` (20 bytes, well under the 65535
limit) the pyenc4 and pyenc5 compressors produce different streams. -/
theorem compressors_differ :
    divergingInput.length ≤ 65535 ∧
    compress_data4 divergingInput ≠ compress_data divergingInput := by
  constructor
  · decide
  · decide

/-- C10 amended: the two compressors do not always produce byte-identical
streams — pyenc5's `rfind` loop never examines candidate positions
overlapping a previously found occurrence, so it can miss a longer match that
pyenc4's linear scan finds.  On `divergingInput` pyenc4 emits a 20-byte
stream and pyenc5 a 22-byte one; both streams nonetheless decompress back to
the input. -/
theorem compressors_roundtrip_but_differ :
    compress_data4 divergingInput =
      .ok [20, 0, 239, 97, 97, 97, 97, 98, 99, 100, 101, 102,
           103, 104, 105, 106, 107, 108, 109, 61] ∧
    compress_data divergingInput =
      .ok [20, 0, 239, 97, 97, 97, 97, 98, 99, 100, 101, 102,
           103, 104, 105, 106, 107, 108, 109, 56, 224, 97] ∧
    ([20, 0, 239, 97, 97, 97, 97, 98, 99, 100, 101, 102,
      103, 104, 105, 106, 107, 108, 109, 61] : List Nat) ≠
      [20, 0, 239, 97, 97, 97, 97, 98, 99, 100, 101, 102,
       103, 104, 105, 106, 107, 108, 109, 56, 224, 97] ∧
    decompress_data [20, 0, 239, 97, 97, 97, 97, 98, 99, 100, 101, 102,
        103, 104, 105, 106, 107, 108, 109, 61] = .ok (divergingInput, 20) ∧
    decompress_data [20, 0, 239, 97, 97, 97, 97, 98, 99, 100, 101, 102,
        103, 104, 105, 106, 107, 108, 109, 56, 224, 97] = .ok (divergingInput, 22) := by
  refine ⟨by decide, by decide, by decide, by decide, by decide⟩

/-- When the opcode's required trailing bytes run past the end of the input,
one decode step fails with the fatal "unexpected end of stream" error.  The
hypotheses cover the four forms that read trailing bytes: MedCopy
(`first_jump = 2`), LongCopy (`first_jump = 4`), ExtCopy
(`first_jump = 6, second_jump = 0`) and LongLiteral
(`first_jump = 6, second_jump ≥ 4`). -/
theorem decompStep_truncated (stream : List Nat) (dsize inPtr outPtr : Nat) (buf : List Nat)
    (hlast : stream.length = inPtr + 1)
    (hcls : (decodeJumps (stream.getD inPtr 0)).1 = 2 ∨
      (decodeJumps (stream.getD inPtr 0)).1 = 4 ∨
      ((decodeJumps (stream.getD inPtr 0)).1 = 6 ∧ (decodeJumps (stream.getD inPtr 0)).2 = 0) ∨
      ((decodeJumps (stream.getD inPtr 0)).1 = 6 ∧ 4 ≤ (decodeJumps (stream.getD inPtr 0)).2)) :
    decompStep stream dsize inPtr outPtr buf = .error "Unexpected end of stream" := by
  rcases hcls with hfj | hfj | ⟨hfj, hsj⟩ | ⟨hfj, hsj⟩
  · simp only [decompStep]; rw [hfj]; simp [hlast]
  · simp only [decompStep]; rw [hfj]; simp [hlast]
  · simp only [decompStep]; rw [hfj, hsj]; simp [hlast]
  · have h0 : (decodeJumps (stream.getD inPtr 0)).2 ≠ 0 := by omega
    have h2 : (decodeJumps (stream.getD inPtr 0)).2 ≠ 2 := by omega
    simp only [decompStep]
    rw [hfj, if_neg h0, if_neg h2, if_pos hsj]
    simp [hlast]

/-- C6: the two end-of-input cases are distinguished.  If the input is
exhausted at an instruction boundary the loop stops and returns the buffer
as-is (an `.ok` result, never an error); if instead an opcode's required
trailing bytes are missing the decode raises the fatal truncation error.
Concretely, `[5, 0, 0xE0, 0xAB]` (literal, then input ends at a boundary
before the declared size 5 is reached) yields the partial result padded with
`0x00` to the declared size, while `[5, 0, 0x40]` (a MedCopy opcode with its
extra byte missing) fails. -/
theorem decomp_end_of_input_cases :
    (∀ (stream : List Nat) (dsize fuel inPtr outPtr : Nat) (buf : List Nat),
        stream.length ≤ inPtr →
        decompLoop stream dsize fuel inPtr outPtr buf = .ok (buf, inPtr)) ∧
    (∀ (stream : List Nat) (dsize fuel inPtr outPtr : Nat) (buf : List Nat),
        outPtr < dsize → stream.length = inPtr + 1 →
        ((decodeJumps (stream.getD inPtr 0)).1 = 2 ∨
         (decodeJumps (stream.getD inPtr 0)).1 = 4 ∨
         ((decodeJumps (stream.getD inPtr 0)).1 = 6 ∧
           (decodeJumps (stream.getD inPtr 0)).2 = 0) ∨
         ((decodeJumps (stream.getD inPtr 0)).1 = 6 ∧
           4 ≤ (decodeJumps (stream.getD inPtr 0)).2)) →
        decompLoop stream dsize (fuel + 1) inPtr outPtr buf =
          .error "Unexpected end of stream") ∧
    decompress_data [5, 0, 0xE0, 0xAB] = .ok ([0xAB, 0, 0, 0, 0], 4) ∧
    decompress_data [5, 0, 0x40] = .error "Unexpected end of stream" := by
  refine ⟨?_, ?_, by rfl, by rfl⟩
  · intro stream dsize fuel inPtr outPtr buf hin
    cases fuel with
    | zero => rfl
    | succ f => simp [decompLoop, hin]
  · intro stream dsize fuel inPtr outPtr buf houtp hlast hcls
    simp only [decompLoop]
    rw [if_pos houtp, if_neg (by omega), decompStep_truncated stream dsize inPtr outPtr buf
      hlast hcls]

/-- Witness for `decomp_end_of_input_cases`: boundary exhaustion at fuel 3
returns `.ok`; a final MedCopy opcode `0x40` with no trailing byte errors. -/
theorem decomp_end_of_input_cases_witness :
    (decompLoop [] 5 3 0 0 [0, 0, 0, 0, 0] = .ok ([0, 0, 0, 0, 0], 0)) ∧
    (decompLoop [0x40] 5 (2 + 1) 0 0 [0, 0, 0, 0, 0] = .error "Unexpected end of stream") :=
  ⟨decomp_end_of_input_cases.1 [] 5 3 0 0 [0, 0, 0, 0, 0] (by decide),
   decomp_end_of_input_cases.2.1 [0x40] 5 2 0 0 [0, 0, 0, 0, 0]
     (by decide) (by decide) (by decide)⟩

/-- C5: whenever a committed match is admissible (`canBeEncoded`), the
emission chain picks the smallest legal copy form, in the claimed order:
ShortCopy when `len ≤ 6 ∧ offset ≤ 15`; else MedCopy when `len ≤ 6` (offset
≤ 1023 is forced by admissibility); else LongCopy when `7 ≤ len ≤ 22 ∧
offset ≤ 1023`; else ExtCopy.  In each case the head byte classifies under
the decoder's selector as that form and the decoder's length/offset formulas
recover exactly the committed `(len, offset)`; in particular length 6 at
offset 15 encodes as the ShortCopy opcode `0x3F` and length 6 at offset 16 as
the MedCopy opcode `0x43 0x10`. -/
theorem emitCopy_smallest_form (L O : Nat) (h3 : 3 ≤ L) (henc : canBeEncoded L O = true) :
    (L ≤ 6 ∧ O ≤ 15 →
      ∃ cmd, emitCopy L O = [cmd] ∧ (decodeJumps cmd).1 = 0 ∧
        cmd % 4 + 3 = L ∧ cmd / 4 = O) ∧
    (L ≤ 6 ∧ 16 ≤ O →
      ∃ cmd b, emitCopy L O = [cmd, b] ∧ (decodeJumps cmd).1 = 2 ∧
        cmd % 4 + 3 = L ∧ cmd / 4 % 16 * 256 + b = O) ∧
    (7 ≤ L ∧ L ≤ 22 ∧ O ≤ 1023 →
      ∃ cmd b, emitCopy L O = [cmd, b] ∧ (decodeJumps cmd).1 = 4 ∧
        cmd / 4 % 16 + 7 = L ∧ cmd % 4 * 256 + b = O) ∧
    (7 ≤ L ∧ (23 ≤ L ∨ 1024 ≤ O) →
      ∃ cmd b1 b2, emitCopy L O = [cmd, b1, b2] ∧ decodeJumps cmd = (6, 0) ∧
        cmd / 16 % 2 * 256 + b1 / 16 % 16 * 16 + cmd % 16 + 7 = L ∧
        b1 % 16 * 256 + b2 = O) ∧
    (emitCopy 6 15 = [0x3F] ∧ (decodeJumps 0x3F).1 = 0 ∧
      emitCopy 6 16 = [0x43, 0x10] ∧ (decodeJumps 0x43).1 = 2) := by
  simp only [canBeEncoded, Bool.or_eq_true, Bool.and_eq_true, decide_eq_true_eq] at henc
  refine ⟨?_, ?_, ?_, ?_, by decide⟩
  · rintro ⟨hl, ho⟩
    have hE : emitCopy L O = [O * 4 + (L - 3) % 4] := by
      simp only [emitCopy]
      rw [if_pos (by simp [hl, ho])]
    refine ⟨O * 4 + (L - 3) % 4, hE, ?_, by omega, by omega⟩
    rw [decodeJumps_fst _ (by omega)]; omega
  · rintro ⟨hl, ho⟩
    have ho1023 : O ≤ 1023 := by omega
    have hE : emitCopy L O = [0x40 + (L - 3) % 4 + O / 256 % 16 * 4, O % 256] := by
      simp only [emitCopy]
      rw [if_neg (by simp; omega), if_pos (by simp [hl, ho1023])]
    refine ⟨_, _, hE, ?_, by omega, by omega⟩
    rw [decodeJumps_fst _ (by omega)]; omega
  · rintro ⟨hl7, hl22, ho⟩
    have hE : emitCopy L O = [0x80 + (L - 7) % 16 * 4 + O / 256 % 4, O % 256] := by
      simp only [emitCopy]
      rw [if_neg (by simp; omega), if_neg (by simp; omega), if_pos (by simp [hl22, ho])]
    refine ⟨_, _, hE, ?_, by omega, by omega⟩
    rw [decodeJumps_fst _ (by omega)]; omega
  · rintro ⟨hl7, hrest⟩
    have hl263 : L ≤ 263 := by omega
    have ho4095 : O ≤ 4095 := by omega
    have hE : emitCopy L O =
        [0xC0 + (L - 7) % 16 + (if 256 ≤ L - 7 then 0x10 else 0),
         (L - 7) / 16 % 16 * 16 + O / 256 % 16, O % 256] := by
      simp only [emitCopy]
      rw [if_neg (by simp; omega), if_neg (by simp; omega), if_neg (by simp; omega),
        if_pos (by simp [hl263, ho4095])]
    refine ⟨_, _, _, hE, ?_, ?_, by omega⟩
    · exact decodeJumps_extCopy _ (by split <;> omega) (by split <;> omega)
    · split <;> omega

/-- Witness for `emitCopy_smallest_form` at the boundary pair: length 6 at
offset 15 (ShortCopy) with the admissibility hypothesis discharged. -/
theorem emitCopy_smallest_form_witness :
    ∃ cmd, emitCopy 6 15 = [cmd] ∧ (decodeJumps cmd).1 = 0 ∧
      cmd % 4 + 3 = 6 ∧ cmd / 4 = 15 :=
  (emitCopy_smallest_form 6 15 (by decide) (by decide)).1 ⟨by decide, by decide⟩

/-! ## List index bookkeeping -/

theorem getD_drop (l : List Nat) (i : Nat) :
    ∀ j : Nat, (l.drop i).getD j 0 = l.getD (i + j) 0 := by
  induction i generalizing l with
  | zero => intro j; simp
  | succ k ih =>
    intro j
    match l with
    | [] => simp
    | a :: t =>
      show (t.drop k).getD j 0 = _
      rw [ih t j]
      have : k + 1 + j = (k + j) + 1 := by omega
      rw [this, List.getD_cons_succ]

theorem getD_take (l : List Nat) (n : Nat) :
    ∀ (j : Nat), j < n → (l.take n).getD j 0 = l.getD j 0 := by
  induction l generalizing n with
  | nil => intro j _; simp
  | cons a t ih =>
    intro j hj
    match n, j with
    | m + 1, 0 => rfl
    | m + 1, k + 1 =>
      show (t.take m).getD k 0 = t.getD k 0
      exact ih m k (by omega)

theorem getD_slice (l : List Nat) (i len j : Nat) (hj : j < len) :
    ((l.drop i).take len).getD j 0 = l.getD (i + j) 0 := by
  rw [getD_take _ _ _ hj, getD_drop]

/-- Two slices with pointwise-equal entries are equal lists. -/
theorem slice_eq_slice (a b : List Nat) (ia ib len : Nat)
    (ha : ia + len ≤ a.length) (hb : ib + len ≤ b.length)
    (h : ∀ j < len, a.getD (ia + j) 0 = b.getD (ib + j) 0) :
    (a.drop ia).take len = (b.drop ib).take len := by
  apply List.ext_getElem
  · simp; omega
  · intro k h₁ h₂
    have hk : k < len := by simp at h₁; omega
    have e1 : ((a.drop ia).take len)[k] = ((a.drop ia).take len).getD k 0 :=
      (List.getD_eq_getElem _ _ h₁).symm
    have e2 : ((b.drop ib).take len)[k] = ((b.drop ib).take len).getD k 0 :=
      (List.getD_eq_getElem _ _ h₂).symm
    rw [e1, e2, getD_slice _ _ _ _ hk, getD_slice _ _ _ _ hk, h k hk]

theorem take_succ_getD (l : List Nat) (n : Nat) (h : n < l.length) :
    l.take (n + 1) = l.take n ++ [l.getD n 0] := by
  rw [List.take_succ, List.getD_eq_getElem _ _ h]
  simp [List.getElem?_eq_getElem h]

/-! ## `writeList` and its relation to the decoder's buffer updates -/

theorem writeList_length : ∀ (xs buf : List Nat) (i : Nat),
    (writeList buf i xs).length = buf.length := by
  intro xs
  induction xs with
  | nil => intro buf i; rfl
  | cons x t ih =>
    intro buf i
    show (writeList (buf.set i x) (i + 1) t).length = _
    rw [ih]; simp

/-- Writing `xs` at the seam of `out ++ zs` overwrites the first
`xs.length` entries of `zs`. -/
theorem writeList_fill : ∀ (xs out zs : List Nat), xs.length ≤ zs.length →
    writeList (out ++ zs) out.length xs = out ++ xs ++ zs.drop xs.length := by
  intro xs
  induction xs with
  | nil => intro out zs _; simp [writeList]
  | cons x t ih =>
    intro out zs hlen
    match zs with
    | [] => simp at hlen
    | z :: zs' =>
      show writeList ((out ++ z :: zs').set out.length x) (out.length + 1) t = _
      rw [List.set_append_right _ _ (le_refl _)]
      simp only [Nat.sub_self, List.set]
      have hx : out ++ x :: zs' = (out ++ [x]) ++ zs' := by simp
      have hl : out.length + 1 = (out ++ [x]).length := by simp
      rw [hx, hl, ih (out ++ [x]) zs' (by simpa using hlen)]
      simp

theorem litCopy_eq_writeList (stream : List Nat) :
    ∀ (n inp outp : Nat) (buf : List Nat), inp + n ≤ stream.length →
      litCopy stream inp n outp buf = writeList buf outp ((stream.drop inp).take n) := by
  intro n
  induction n with
  | zero => intro inp outp buf _; rfl
  | succ m ih =>
    intro inp outp buf h
    have hin : inp < stream.length := by omega
    show litCopy stream (inp + 1) m (outp + 1) (buf.set outp (stream.getD inp 0)) = _
    rw [ih (inp + 1) (outp + 1) _ (by omega)]
    rw [List.drop_eq_getElem_cons hin, ← List.getD_eq_getElem stream 0 hin]
    rfl

/-- Untouched positions: `List.set` above the region read by `take∘drop`. -/
theorem take_drop_set_high (l : List Nat) (i len j : Nat) (v : Nat) (h : i + len ≤ j) :
    ((l.set j v).drop i).take len = (l.drop i).take len := by
  apply List.ext_getElem
  · simp
  · intro k h₁ h₂
    have hk : k < len := by simp at h₁; omega
    have e1 : ((l.set j v).drop i).take len = ((l.set j v).drop i).take len := rfl
    rw [← List.getD_eq_getElem _ 0 h₁, ← List.getD_eq_getElem _ 0 h₂,
      getD_slice _ _ _ _ hk, getD_slice _ _ _ _ hk]
    simp only [List.getD_eq_getElem?_getD]
    rw [List.getElem?_set_ne (by omega)]

/-- A copy whose source range lies entirely below the write cursor is a plain
block write of the source slice. -/
theorem copyLoop_eq_writeList :
    ∀ (n src outp : Nat) (buf : List Nat), src + n ≤ outp → outp + n ≤ buf.length →
      copyLoop n (src : Int) outp buf =
        (writeList buf outp ((buf.drop src).take n), outp + n) := by
  intro n
  induction n with
  | zero => intro src outp buf _ _; simp [copyLoop, writeList]
  | succ m ih =>
    intro src outp buf hno hlen
    have hsrc : src < buf.length := by omega
    have hb : (if (src : Int) < 0 then 255 else buf.getD ((src : Int)).toNat 0)
        = buf.getD src 0 := by
      rw [if_neg (by omega)]
      norm_num
    show copyLoop m ((src : Int) + 1) (outp + 1) _ = _
    have hcast : ((src : Int) + 1) = ((src + 1 : Nat) : Int) := by push_cast; ring
    rw [hb, hcast, ih (src + 1) (outp + 1) (buf.set outp (buf.getD src 0))
      (by omega) (by simp; omega)]
    rw [take_drop_set_high _ _ _ _ _ (by omega)]
    rw [List.drop_eq_getElem_cons hsrc, ← List.getD_eq_getElem buf 0 hsrc]
    have : outp + (m + 1) = outp + 1 + m := by omega
    rw [this]
    rfl

/-! ## Emitted-stream structure lemmas -/

theorem flushLiterals_nil : flushLiterals [] = [] := rfl

/-- A pending literal buffer of 1..16 bytes flushes as a single ShortLiteral
chunk. -/
theorem flushLiterals_small (l : List Nat) (h1 : l ≠ []) (h16 : l.length ≤ 16) :
    flushLiterals l = (0xE0 + (l.length - 1)) :: l := by
  match l with
  | a :: t =>
    show flushLitAux (t.length + 1) (a :: t) = _
    have hmin : min 16 (a :: t).length = t.length + 1 := by simp at h16 ⊢; omega
    simp only [flushLitAux, hmin]
    have hmod : (t.length + 1 - 1) % 16 = (a :: t).length - 1 := by simp at h16 ⊢; omega
    rw [hmod]
    have htake : (a :: t).take (t.length + 1) = a :: t :=
      List.take_of_length_le (by simp)
    have hdrop : (a :: t).drop (t.length + 1) = [] :=
      List.drop_eq_nil_of_le (by simp)
    rw [htake, hdrop]
    have : flushLitAux t.length [] = [] := by cases t <;> rfl
    rw [this]
    simp

theorem selfExtend_no_overlap :
    ∀ (n : Nat) (out : List Nat) (src : Nat), src + n ≤ out.length →
      selfExtend out src n = out ++ (out.drop src).take n := by
  intro n
  induction n with
  | zero => intro out src _; simp [selfExtend]
  | succ m ih =>
    intro out src h
    have hsrc : src < out.length := by omega
    show selfExtend (out ++ [out.getD src 0]) (src + 1) m = _
    rw [ih (out ++ [out.getD src 0]) (src + 1) (by simp; omega)]
    rw [List.drop_append_of_le_length (by omega),
      List.take_append_of_le_length (by simp; omega)]
    rw [List.drop_eq_getElem_cons hsrc, ← List.getD_eq_getElem out 0 hsrc]
    simp

/-! ## Decoder step lemmas -/

theorem decompLoop_stop (stream : List Nat) (dsize fuel inPtr outPtr : Nat) (buf : List Nat)
    (hout : ¬ outPtr < dsize) :
    decompLoop stream dsize fuel inPtr outPtr buf = .ok (buf, inPtr) := by
  cases fuel with
  | zero => rfl
  | succ f => simp [decompLoop, hout]

theorem decompLoop_step (stream : List Nat) (dsize fuel inPtr outPtr : Nat) (buf : List Nat)
    (s : Nat × Nat × List Nat)
    (hout : outPtr < dsize) (hin : inPtr < stream.length)
    (hs : decompStep stream dsize inPtr outPtr buf = .ok s) :
    decompLoop stream dsize (fuel + 1) inPtr outPtr buf =
      decompLoop stream dsize fuel s.1 s.2.1 s.2.2 := by
  simp only [decompLoop]
  rw [if_pos hout, if_neg (by omega), hs]

theorem decompStep_shortLit (stream : List Nat) (dsize inPtr outPtr : Nat) (buf : List Nat)
    (c : Nat) (hc1 : 1 ≤ c) (hc16 : c ≤ 16)
    (hcmd : stream.getD inPtr 0 = 0xE0 + (c - 1))
    (havail : inPtr + 1 + c ≤ stream.length)
    (hout : outPtr + c ≤ dsize) :
    decompStep stream dsize inPtr outPtr buf =
      .ok (inPtr + 1 + c, outPtr + c,
        writeList buf outPtr ((stream.drop (inPtr + 1)).take c)) := by
  have hdj : decodeJumps (0xE0 + (c - 1)) = (6, 2) :=
    decodeJumps_shortLit (0xE0 + (c - 1)) (by omega) (by omega)
  simp only [decompStep]
  rw [hcmd, hdj]
  simp only [show ¬((6, 2).1 = 0) by decide, show ¬((6, 2).1 = 2) by decide,
    show ¬((6, 2).1 = 4) by decide, show ((6, 2).1 = 6) by decide,
    show ¬((6, 2).2 = 0) by decide, show ((6, 2).2 = 2) by decide,
    if_true, if_false, ite_true, ite_false, if_neg, if_pos]
  rw [show min ((0xE0 + (c - 1)) % 16 + 1)
      (min (dsize - outPtr) (stream.length - (inPtr + 1))) = c by omega]
  rw [litCopy_eq_writeList stream c (inPtr + 1) outPtr buf (by omega)]

theorem decompStep_copy (stream : List Nat) (dsize inPtr outPtr : Nat) (buf : List Nat)
    (L O : Nat) (h3 : 3 ≤ L) (henc : canBeEncoded L O = true)
    (hbytes : ∀ i < (emitCopy L O).length, stream.getD (inPtr + i) 0 = (emitCopy L O).getD i 0)
    (havail : inPtr + (emitCopy L O).length ≤ stream.length)
    (hOlt : O < outPtr)
    (hsrc : outPtr - O - 1 + L ≤ outPtr)
    (hout : outPtr + L ≤ dsize)
    (hbuf : outPtr + L ≤ buf.length) :
    decompStep stream dsize inPtr outPtr buf =
      .ok (inPtr + (emitCopy L O).length, outPtr + L,
        writeList buf outPtr ((buf.drop (outPtr - O - 1)).take L)) := by
  simp only [canBeEncoded, Bool.or_eq_true, Bool.and_eq_true, decide_eq_true_eq] at henc
  by_cases hA : L ≤ 6 ∧ O ≤ 15
  · -- ShortCopy
    have hE : emitCopy L O = [O * 4 + (L - 3) % 4] := by
      simp only [emitCopy]
      rw [if_pos (by simp [hA.1, hA.2])]
    rw [hE] at hbytes havail ⊢
    have hcmd : stream.getD inPtr 0 = O * 4 + (L - 3) % 4 := by
      simpa using hbytes 0 (by simp)
    have hfst : (decodeJumps (O * 4 + (L - 3) % 4)).1 = 0 := by
      rw [decodeJumps_fst _ (by omega)]; omega
    simp only [decompStep]
    rw [hcmd, hfst, if_pos rfl]
    rw [show (O * 4 + (L - 3) % 4) % 4 + 3 = L by omega,
      show (O * 4 + (L - 3) % 4) / 4 = O by omega,
      show min L (dsize - outPtr) = L by omega,
      show (outPtr : Int) - ((O : Int) + 1) = ((outPtr - O - 1 : Nat) : Int) by omega,
      copyLoop_eq_writeList L (outPtr - O - 1) outPtr buf (by omega) hbuf]
    simp
  · by_cases hB : L ≤ 6
    · -- MedCopy: L ≤ 6 and 16 ≤ O ≤ 1023
      have hO : 16 ≤ O := by omega
      have hO2 : O ≤ 1023 := by omega
      have hE : emitCopy L O = [0x40 + (L - 3) % 4 + O / 256 % 16 * 4, O % 256] := by
        simp only [emitCopy]
        rw [if_neg (by simp; omega), if_pos (by simp [hB, hO2])]
      rw [hE] at hbytes havail ⊢
      have hcmd : stream.getD inPtr 0 = 0x40 + (L - 3) % 4 + O / 256 % 16 * 4 := by
        simpa using hbytes 0 (by simp)
      have hb1 : stream.getD (inPtr + 1) 0 = O % 256 := by
        simpa using hbytes 1 (by simp)
      have hfst : (decodeJumps (0x40 + (L - 3) % 4 + O / 256 % 16 * 4)).1 = 2 := by
        rw [decodeJumps_fst _ (by omega)]; omega
      simp only [decompStep]
      rw [hcmd, hfst, if_neg (by omega), if_pos rfl, if_neg (by simp at havail; omega)]
      rw [hb1,
        show (0x40 + (L - 3) % 4 + O / 256 % 16 * 4) % 4 + 3 = L by omega,
        show (0x40 + (L - 3) % 4 + O / 256 % 16 * 4) / 4 % 16 * 256 + O % 256 = O by omega,
        show min L (dsize - outPtr) = L by omega,
        show (outPtr : Int) - ((O : Int) + 1) = ((outPtr - O - 1 : Nat) : Int) by omega,
        copyLoop_eq_writeList L (outPtr - O - 1) outPtr buf (by omega) hbuf]
      simp
    · by_cases hC : L ≤ 22 ∧ O ≤ 1023
      · -- LongCopy: 7 ≤ L ≤ 22, O ≤ 1023
        have hE : emitCopy L O = [0x80 + (L - 7) % 16 * 4 + O / 256 % 4, O % 256] := by
          simp only [emitCopy]
          rw [if_neg (by simp; omega), if_neg (by simp; omega),
            if_pos (by simp [hC.1, hC.2])]
        rw [hE] at hbytes havail ⊢
        have hcmd : stream.getD inPtr 0 = 0x80 + (L - 7) % 16 * 4 + O / 256 % 4 := by
          simpa using hbytes 0 (by simp)
        have hb1 : stream.getD (inPtr + 1) 0 = O % 256 := by
          simpa using hbytes 1 (by simp)
        have hfst : (decodeJumps (0x80 + (L - 7) % 16 * 4 + O / 256 % 4)).1 = 4 := by
          rw [decodeJumps_fst _ (by omega)]; omega
        simp only [decompStep]
        rw [hcmd, hfst, if_neg (by omega), if_neg (by omega), if_pos rfl,
          if_neg (by simp at havail; omega)]
        rw [hb1,
          show (0x80 + (L - 7) % 16 * 4 + O / 256 % 4) / 4 % 16 + 7 = L by omega,
          show (0x80 + (L - 7) % 16 * 4 + O / 256 % 4) % 4 * 256 + O % 256 = O by omega,
          show min L (dsize - outPtr) = L by omega,
          show (outPtr : Int) - ((O : Int) + 1) = ((outPtr - O - 1 : Nat) : Int) by omega,
          copyLoop_eq_writeList L (outPtr - O - 1) outPtr buf (by omega) hbuf]
        simp
      · -- ExtCopy: 7 ≤ L ≤ 263, O ≤ 4095, and not a smaller form
        have hL7 : 7 ≤ L := by omega
        have hL263 : L ≤ 263 := by omega
        have hO4095 : O ≤ 4095 := by omega
        have hE : emitCopy L O =
            [0xC0 + (L - 7) % 16 + (if 256 ≤ L - 7 then 0x10 else 0),
             (L - 7) / 16 % 16 * 16 + O / 256 % 16, O % 256] := by
          simp only [emitCopy]
          rw [if_neg (by simp; omega), if_neg (by simp; omega), if_neg (by simp; omega),
            if_pos (by simp [hL263, hO4095])]
        rw [hE] at hbytes havail ⊢
        have hcmd : stream.getD inPtr 0 =
            0xC0 + (L - 7) % 16 + (if 256 ≤ L - 7 then 0x10 else 0) := by
          simpa using hbytes 0 (by simp)
        have hb1 : stream.getD (inPtr + 1) 0 = (L - 7) / 16 % 16 * 16 + O / 256 % 16 := by
          simpa using hbytes 1 (by simp)
        have hb2 : stream.getD (inPtr + 1 + 1) 0 = O % 256 := by
          have := hbytes 2 (by simp)
          simpa [show inPtr + 2 = inPtr + 1 + 1 by omega] using this
        have hdj : decodeJumps (0xC0 + (L - 7) % 16 + (if 256 ≤ L - 7 then 0x10 else 0))
            = (6, 0) :=
          decodeJumps_extCopy _ (by split <;> omega) (by split <;> omega)
        simp only [decompStep]
        rw [hcmd, hdj]
        rw [if_neg (by decide), if_neg (by decide), if_neg (by decide), if_pos (by decide),
          if_pos (by decide), if_neg (by simp at havail; omega),
          if_neg (by simp at havail; omega)]
        rw [hb1, hb2,
          show (0xC0 + (L - 7) % 16 + (if 256 ≤ L - 7 then 0x10 else 0)) / 16 % 2 * 256 +
              ((L - 7) / 16 % 16 * 16 + O / 256 % 16) / 16 % 16 * 16 +
              (0xC0 + (L - 7) % 16 + (if 256 ≤ L - 7 then 0x10 else 0)) % 16 + 7 = L by
            split <;> omega,
          show ((L - 7) / 16 % 16 * 16 + O / 256 % 16) % 16 * 256 + O % 256 = O by omega,
          show min L (dsize - outPtr) = L by omega,
          show (outPtr : Int) - ((O : Int) + 1) = ((outPtr - O - 1 : Nat) : Int) by omega,
          copyLoop_eq_writeList L (outPtr - O - 1) outPtr buf (by omega) hbuf]
        simp

theorem matchAt_spec (buf pat : List Nat) (i : Nat) (h : matchAt buf pat i = true) :
    (buf.drop i).take pat.length = pat := by
  simpa [matchAt] using h

theorem matchAt_le (buf pat : List Nat) (i : Nat) (hp : 0 < pat.length)
    (h : matchAt buf pat i = true) :
    i + pat.length ≤ buf.length := by
  have hl := congrArg List.length (matchAt_spec buf pat i h)
  simp [Nat.min_def] at hl
  omega

theorem rfindDesc_sound (buf pat : List Nat) (start : Nat) :
    ∀ (fuel i j : Nat), rfindDesc buf pat start fuel i = some j →
      start ≤ j ∧ j ≤ i ∧ matchAt buf pat j = true := by
  intro fuel
  induction fuel with
  | zero => intro i j h; simp [rfindDesc] at h
  | succ f ih =>
    intro i j h
    simp only [rfindDesc] at h
    split at h
    · simp at h
    · split at h
      next hm => cases h; exact ⟨by omega, le_refl _, hm⟩
      next hm =>
        split at h
        · simp at h
        · obtain ⟨h1, h2, h3⟩ := ih _ j h
          exact ⟨h1, by omega, h3⟩

theorem listRfind_sound (buf pat : List Nat) (start stop i : Nat)
    (h : listRfind buf pat start stop = some i) :
    start ≤ i ∧ i + pat.length ≤ stop ∧ matchAt buf pat i = true := by
  simp only [listRfind] at h
  split at h
  next hle =>
    obtain ⟨h1, h2, h3⟩ := rfindDesc_sound buf pat start _ _ _ h
    exact ⟨h1, by omega, h3⟩
  next => simp at h

theorem extLoop_sound (out data : List Nat) (checkPos pos maxLen : Nat) :
    ∀ (fuel m : Nat), m ≤ maxLen →
      (∀ i < m, out.getD (checkPos + i) 0 = data.getD (pos + i) 0) →
      m ≤ extLoop out data checkPos pos maxLen fuel m ∧
      extLoop out data checkPos pos maxLen fuel m ≤ maxLen ∧
      ∀ i < extLoop out data checkPos pos maxLen fuel m,
        out.getD (checkPos + i) 0 = data.getD (pos + i) 0 := by
  intro fuel
  induction fuel with
  | zero => intro m hm h; exact ⟨le_refl _, hm, h⟩
  | succ f ih =>
    intro m hm h
    simp only [extLoop]
    split
    next hcond =>
      simp only [Bool.and_eq_true, decide_eq_true_eq, beq_iff_eq] at hcond
      have hext : ∀ i < m + 1, out.getD (checkPos + i) 0 = data.getD (pos + i) 0 := by
        intro i hi
        rcases Nat.lt_or_ge i m with hlt | hge
        · exact h i hlt
        · have : i = m := by omega
          subst this
          exact hcond.2
      obtain ⟨a, b, c⟩ := ih (m + 1) (by omega) hext
      exact ⟨by omega, b, c⟩
    next => exact ⟨le_refl _, hm, h⟩

theorem matchAt_bytes (out data : List Nat) (pos checkPos : Nat)
    (hm : matchAt out ((data.drop pos).take 3) checkPos = true)
    (hpos3 : pos + 3 ≤ data.length) :
    checkPos + 3 ≤ out.length ∧
    ∀ i < 3, out.getD (checkPos + i) 0 = data.getD (pos + i) 0 := by
  have hplen : ((data.drop pos).take 3).length = 3 := by simp; omega
  have hle := matchAt_le out _ checkPos (by omega) hm
  rw [hplen] at hle
  have hsp := matchAt_spec out _ checkPos hm
  rw [hplen] at hsp
  refine ⟨hle, fun i hi => ?_⟩
  have hcong := congrArg (fun l => l.getD i 0) hsp
  simp only at hcong
  rw [getD_slice _ _ _ _ hi, getD_slice _ _ _ _ hi] at hcong
  exact hcong

theorem searchLoop5_sound (out data : List Nat) (pos searchStart : Nat)
    (hpos3 : pos + 3 ≤ data.length) :
    ∀ (fuel stop : Nat) (best : Nat × Int), stop ≤ out.length →
      SoundBest out data pos best →
      SoundBest out data pos
        (searchLoop5 out data ((data.drop pos).take 3) pos searchStart fuel stop best) := by
  intro fuel
  induction fuel with
  | zero => intro stop best _ hb; exact hb
  | succ f ih =>
    intro stop best hstop hb
    by_cases hlt : searchStart < stop
    · rcases hfind : listRfind out ((data.drop pos).take 3) searchStart stop with _ | checkPos
      · have hred : searchLoop5 out data ((data.drop pos).take 3) pos searchStart (f + 1)
            stop best = best := by
          simp only [searchLoop5]
          rw [if_pos hlt, hfind]
        rw [hred]; exact hb
      · have hred : searchLoop5 out data ((data.drop pos).take 3) pos searchStart (f + 1)
            stop best =
            (if best.1 < extLoop out data checkPos pos
                (min 263 (min (data.length - pos) (out.length - checkPos)))
                (min 263 (min (data.length - pos) (out.length - checkPos))) 3 then
              if 263 ≤ extLoop out data checkPos pos
                  (min 263 (min (data.length - pos) (out.length - checkPos)))
                  (min 263 (min (data.length - pos) (out.length - checkPos))) 3 then
                (extLoop out data checkPos pos
                  (min 263 (min (data.length - pos) (out.length - checkPos)))
                  (min 263 (min (data.length - pos) (out.length - checkPos))) 3,
                 (checkPos : Int))
              else searchLoop5 out data ((data.drop pos).take 3) pos searchStart f checkPos
                (extLoop out data checkPos pos
                  (min 263 (min (data.length - pos) (out.length - checkPos)))
                  (min 263 (min (data.length - pos) (out.length - checkPos))) 3,
                 (checkPos : Int))
            else searchLoop5 out data ((data.drop pos).take 3) pos searchStart f checkPos
              best) := by
          simp only [searchLoop5]
          rw [if_pos hlt, hfind]
        obtain ⟨hcs, hcl, hcm⟩ := listRfind_sound _ _ _ _ _ hfind
        have hplen : ((data.drop pos).take 3).length = 3 := by simp; omega
        rw [hplen] at hcl
        obtain ⟨hc3, hbytes3⟩ := matchAt_bytes out data pos checkPos hcm hpos3
        obtain ⟨hm1, hm2, hm3⟩ := extLoop_sound out data checkPos pos
          (min 263 (min (data.length - pos) (out.length - checkPos)))
          (min 263 (min (data.length - pos) (out.length - checkPos))) 3
          (by omega) (fun i hi => hbytes3 i hi)
        have hSoundNew : SoundBest out data pos
            (extLoop out data checkPos pos
              (min 263 (min (data.length - pos) (out.length - checkPos)))
              (min 263 (min (data.length - pos) (out.length - checkPos))) 3,
             (checkPos : Int)) := by
          intro _
          refine ⟨by omega, ?_, by omega, by omega, ?_⟩
          · simp only [Int.toNat_natCast]; omega
          · intro i hi
            simp only [Int.toNat_natCast]
            exact hm3 i hi
        rw [hred]
        split
        · split
          · exact hSoundNew
          · exact ih checkPos _ (by omega) hSoundNew
        · exact ih checkPos best (by omega) hb
    · have hred : searchLoop5 out data ((data.drop pos).take 3) pos searchStart (f + 1)
          stop best = best := by
        simp only [searchLoop5]
        rw [if_neg hlt]
      rw [hred]; exact hb

theorem matchSearch5_sound (out data : List Nat) (pos : Nat) :
    SoundBest out data pos (matchSearch5 out data pos) := by
  unfold matchSearch5
  split
  next hc =>
    exact searchLoop5_sound out data pos (out.length - 4095) hc.2 (out.length + 1)
      out.length (0, -1) (le_refl _) (fun h3 => absurd h3 (by omega))
  next => exact fun h3 => absurd h3 (by omega)

/-! ## Round trip (C1) -/

/-- Decoding one ShortLiteral chunk emitted by `flush_literals`: the decoder
consumes the chunk and appends the pending literal bytes to its buffer. -/
theorem decomp_flush_step (E lit rest : List Nat) (n fuel : Nat) (out : List Nat)
    (hlit1 : lit ≠ []) (hlit16 : lit.length ≤ 16)
    (hout : out.length + lit.length ≤ n) :
    decompLoop (E ++ (flushLiterals lit ++ rest)) n (fuel + 1) E.length out.length
      (out ++ List.replicate (n - out.length) 0) =
    decompLoop (E ++ (flushLiterals lit ++ rest)) n fuel
      (E.length + lit.length + 1) (out.length + lit.length)
      ((out ++ lit) ++ List.replicate (n - (out.length + lit.length)) 0) := by
  have hc1 : 1 ≤ lit.length := List.length_pos.mpr hlit1
  have hflush : flushLiterals lit = (0xE0 + (lit.length - 1)) :: lit :=
    flushLiterals_small lit hlit1 hlit16
  have hstream : E ++ (flushLiterals lit ++ rest) =
      (E ++ [0xE0 + (lit.length - 1)]) ++ (lit ++ rest) := by
    rw [hflush]; simp
  have hcmd : (E ++ (flushLiterals lit ++ rest)).getD E.length 0 = 0xE0 + (lit.length - 1) := by
    rw [hflush, List.getD_append_right _ _ _ _ (le_refl _), Nat.sub_self]
    rfl
  have hslice : (((E ++ (flushLiterals lit ++ rest)).drop (E.length + 1)).take lit.length)
      = lit := by
    rw [hstream, List.drop_left' (by simp), List.take_left' rfl]
  have hs := decompStep_shortLit (E ++ (flushLiterals lit ++ rest)) n E.length out.length
    (out ++ List.replicate (n - out.length) 0) lit.length hc1 hlit16 hcmd
    (by rw [hflush]; simp only [List.length_append, List.length_cons]; omega) (by omega)
  rw [decompLoop_step _ _ _ _ _ _ _ (by omega)
    (by rw [hflush]; simp only [List.length_append, List.length_cons]; omega) hs]
  rw [hslice]
  rw [writeList_fill lit out (List.replicate (n - out.length) 0) (by simp; omega)]
  rw [List.drop_replicate]
  have h1 : E.length + 1 + lit.length = E.length + lit.length + 1 := by omega
  have h2 : n - out.length - lit.length = n - (out.length + lit.length) := by omega
  rw [h1, h2, List.append_assoc]

/-- Decoding one emitted copy instruction: the decoder consumes the emitted
bytes and appends the matched slice to its buffer. -/
theorem decomp_emit_step (E rest : List Nat) (n fuel : Nat) (out1 : List Nat) (L O : Nat)
    (h3 : 3 ≤ L) (henc : canBeEncoded L O = true)
    (hOlt : O < out1.length) (hsrc : out1.length - O - 1 + L ≤ out1.length)
    (hout : out1.length + L ≤ n) :
    decompLoop (E ++ (emitCopy L O ++ rest)) n (fuel + 1) E.length out1.length
      (out1 ++ List.replicate (n - out1.length) 0) =
    decompLoop (E ++ (emitCopy L O ++ rest)) n fuel (E.length + (emitCopy L O).length)
      (out1.length + L)
      ((out1 ++ (out1.drop (out1.length - O - 1)).take L) ++
        List.replicate (n - (out1.length + L)) 0) := by
  have hemitpos : 1 ≤ (emitCopy L O).length := by
    have h := henc
    simp only [canBeEncoded, Bool.or_eq_true, Bool.and_eq_true, decide_eq_true_eq] at h
    simp only [emitCopy]
    split
    · simp
    · split
      · simp
      · split
        · simp
        · split
          · simp
          · next h1 h2 h3x h4 =>
            simp only [Bool.and_eq_true, decide_eq_true_eq, Bool.not_eq_true] at h1 h2 h3x h4
            exfalso
            simp at h1 h2 h3x h4
            omega
  have hbytes : ∀ i < (emitCopy L O).length,
      (E ++ (emitCopy L O ++ rest)).getD (E.length + i) 0 = (emitCopy L O).getD i 0 := by
    intro i hi
    rw [List.getD_append_right _ _ _ _ (by omega),
      show E.length + i - E.length = i by omega,
      List.getD_append _ _ _ _ hi]
  have hs := decompStep_copy (E ++ (emitCopy L O ++ rest)) n E.length out1.length
    (out1 ++ List.replicate (n - out1.length) 0) L O h3 henc hbytes
    (by simp only [List.length_append]; omega) hOlt hsrc hout
    (by simp only [List.length_append, List.length_replicate]; omega)
  rw [decompLoop_step _ _ _ _ _ _ _ (by omega)
    (by simp only [List.length_append]; omega) hs]
  rw [List.drop_append_of_le_length (by omega),
    List.take_append_of_le_length (by simp only [List.length_drop]; omega)]
  have hcond : ((out1.drop (out1.length - O - 1)).take L).length ≤
      (List.replicate (n - out1.length) (0 : Nat)).length := by
    simp only [List.length_take, List.length_drop, List.length_replicate]
    omega
  rw [writeList_fill _ out1 _ hcond]
  have hXlen : ((out1.drop (out1.length - O - 1)).take L).length = L := by
    simp only [List.length_take, List.length_drop]
    omega
  have hrepl : n - out1.length - L = n - (out1.length + L) := by omega
  rw [hXlen, List.drop_replicate, hrepl, List.append_assoc]

theorem litStep_fst (data : List Nat) (pos : Nat) (C out lit : List Nat) :
    (litStep data pos C out lit).1 = C ++ (litStep data pos [] out lit).1 := by
  simp only [litStep]
  split <;> simp

theorem litStep_snd (data : List Nat) (pos : Nat) (C out lit : List Nat) :
    (litStep data pos C out lit).2 = (litStep data pos [] out lit).2 := by
  simp only [litStep]
  split <;> simp

/-- The compressor loop only ever appends to its `compressed` accumulator. -/
theorem encLoop_accum (data : List Nat) :
    ∀ (fuel pos : Nat) (C out lit : List Nat),
      encLoop data fuel pos C out lit = C ++ encLoop data fuel pos [] out lit := by
  intro fuel
  induction fuel with
  | zero => intro pos C out lit; simp [encLoop]
  | succ f ih =>
    intro pos C out lit
    simp only [encLoop]
    split
    · split
      · split
        · rw [ih _ (C ++ flushLiterals lit ++ _),
            ih _ ([] ++ flushLiterals lit ++ _)]
          simp
        · rw [litStep_fst, litStep_snd, ih _ (C ++ (litStep data pos [] out lit).1),
            ih _ ((litStep data pos [] out lit).1)]
          simp
      · rw [litStep_fst, litStep_snd, ih _ (C ++ (litStep data pos [] out lit).1),
          ih _ ((litStep data pos [] out lit).1)]
        simp
    · simp

/-- An admissible match always has an encoding (the fall-through case of the
emission chain is unreachable). -/
theorem emitCopy_length_pos (L O : Nat) (henc : canBeEncoded L O = true) :
    1 ≤ (emitCopy L O).length := by
  simp only [canBeEncoded, Bool.or_eq_true, Bool.and_eq_true, decide_eq_true_eq] at henc
  simp only [emitCopy]
  split
  · simp
  · split
    · simp
    · split
      · simp
      · split
        · simp
        · next h1 h2 h3x h4 =>
          simp only [Bool.and_eq_true, decide_eq_true_eq, Bool.not_eq_true] at h1 h2 h3x h4
          exfalso
          simp at h1 h2 h3x h4
          omega

/-- Decoding the final literal flush completes the output buffer exactly. -/
theorem sim_final (data : List Nat) (out lit E : List Nat)
    (hol : out ++ lit = data) (hlit : lit.length ≤ 15) (fD : Nat)
    (hfD : (flushLiterals lit).length ≤ fD) :
    decompLoop (E ++ flushLiterals lit) data.length fD E.length out.length
      (out ++ List.replicate (data.length - out.length) 0) =
      .ok (data, E.length + (flushLiterals lit).length) := by
  rcases Decidable.em (lit = []) with hnil | hnil
  · subst hnil
    rw [flushLiterals_nil]
    have hlen : out.length = data.length := by rw [← hol]; simp
    rw [decompLoop_stop _ _ _ _ _ _ (by omega), hlen]
    simp [← hol]
  · have hc1 : 1 ≤ lit.length := List.length_pos.mpr hnil
    have hlen : out.length + lit.length = data.length := by rw [← hol]; simp
    have hfl : (flushLiterals lit).length = lit.length + 1 := by
      rw [flushLiterals_small lit hnil (by omega)]; simp
    obtain ⟨f1, rfl⟩ : ∃ f1, fD = f1 + 1 := ⟨fD - 1, by omega⟩
    have hrw : E ++ flushLiterals lit = E ++ (flushLiterals lit ++ []) := by simp
    rw [hrw, decomp_flush_step E lit [] data.length f1 out hnil (by omega) (by omega),
      decompLoop_stop _ _ _ _ _ _ (by omega), hol,
      show data.length - (out.length + lit.length) = 0 by omega]
    simp [hfl]
    omega

set_option maxHeartbeats 2000000 in
/-- Forward simulation of the compressor by the decoder: from any reachable
compressor state, decoding the bytes the compressor will still emit extends
the decoder state to the full input.  Instantiated at the initial state this
is the round-trip theorem. -/
theorem encLoop_sim (data : List Nat) :
    ∀ (fuelE pos : Nat) (out lit E : List Nat),
      out ++ lit = data.take pos → pos ≤ data.length → lit.length ≤ 15 →
      data.length - pos ≤ fuelE →
      ∀ fD, (encLoop data fuelE pos [] out lit).length ≤ fD →
        decompLoop (E ++ encLoop data fuelE pos [] out lit) data.length fD
            E.length out.length (out ++ List.replicate (data.length - out.length) 0) =
          .ok (data, E.length + (encLoop data fuelE pos [] out lit).length) := by
  intro fuelE
  induction fuelE with
  | zero =>
    intro pos out lit E hol hpos hlit hfe fD hfD
    have hpn : pos = data.length := by omega
    subst hpn
    have hol' : out ++ lit = data := by rw [hol, List.take_length]
    exact sim_final data out lit E hol' hlit fD hfD
  | succ fe ih =>
    intro pos out lit E hol hpos hlit hfe fD hfD
    by_cases hpos2 : pos < data.length
    case neg =>
      have hunf : encLoop data (fe + 1) pos [] out lit = flushLiterals lit := by
        simp only [encLoop]
        rw [if_neg hpos2]
        simp
      rw [hunf] at hfD ⊢
      have hpn : pos = data.length := by omega
      have hol' : out ++ lit = data := by rw [hol, hpn, List.take_length]
      exact sim_final data out lit E hol' hlit fD hfD
    case pos =>
      have hlen1 : out.length + lit.length = pos := by
        have := congrArg List.length hol
        simp [List.length_take] at this
        omega
      by_cases hcommit : 3 ≤ (matchSearch5 out data pos).1 ∧
          canBeEncoded (matchSearch5 out data pos).1
            (out.length + lit.length - (matchSearch5 out data pos).2.toNat - 1) = true
      case pos =>
        obtain ⟨hb, hc⟩ := hcommit
        have hsound := matchSearch5_sound out data pos
        cases hms : matchSearch5 out data pos with
        | mk L Pz =>
        simp only [hms] at hb hc hsound
        obtain ⟨hP0, hPL, hL263, hposL, hmatch⟩ := hsound hb
        have hO : canBeEncoded L ((out ++ lit).length - Pz.toNat - 1) = true := by
          rw [show (out ++ lit).length - Pz.toNat - 1 =
            out.length + lit.length - Pz.toNat - 1 by simp]
          exact hc
        have hunf : encLoop data (fe + 1) pos [] out lit =
            (flushLiterals lit ++ emitCopy L ((out ++ lit).length - Pz.toNat - 1)) ++
              encLoop data fe (pos + L) []
                (selfExtend (out ++ lit)
                  ((out ++ lit).length - ((out ++ lit).length - Pz.toNat - 1) - 1) L) [] := by
          simp only [encLoop, hms]
          rw [if_pos hpos2, if_pos hb, if_pos hc]
          rw [encLoop_accum data fe (pos + L)]
          simp
        rw [show (out ++ lit).length - ((out ++ lit).length - Pz.toNat - 1) - 1 =
            Pz.toNat by simp; omega] at hunf
        have hslice : ((out ++ lit).drop Pz.toNat).take L = (data.drop pos).take L :=
          slice_eq_slice _ _ _ _ _ (by simp; omega) (by omega)
            (fun i hi => by
              rw [List.getD_append _ _ _ _ (by omega)]
              exact hmatch i hi)
        have hout2 : selfExtend (out ++ lit) Pz.toNat L = data.take (pos + L) := by
          rw [selfExtend_no_overlap _ _ _ (by simp; omega), hslice, hol, ← List.take_add]
        rw [hout2] at hunf
        have hemit1 : 1 ≤ (emitCopy L ((out ++ lit).length - Pz.toNat - 1)).length :=
          emitCopy_length_pos _ _ hO
        rw [hunf] at hfD ⊢
        rcases Decidable.em (lit = []) with hnil | hnil
        · subst hnil
          simp only [List.append_nil, flushLiterals_nil, List.nil_append, List.length_nil,
            Nat.add_zero] at hfD hO hslice hlen1 hemit1 ⊢
          obtain ⟨f1, rfl⟩ : ∃ f1, fD = f1 + 1 := ⟨fD - 1, by
            simp only [List.length_append] at hfD; omega⟩
          rw [decomp_emit_step E _ data.length f1 out L
            (out.length - Pz.toNat - 1) hb hO
            (by omega) (by omega) (by omega)]
          rw [show out.length - (out.length - Pz.toNat - 1) - 1 = Pz.toNat by omega]
          rw [hslice]
          rw [show out ++ (data.drop pos).take L = data.take (pos + L) by
            (conv_lhs => rw [show out = data.take pos by simpa using hol])
            rw [← List.take_add]]
          rw [show data.length - (out.length + L) =
              data.length - (data.take (pos + L)).length by
            (simp only [List.length_take]; omega)]
          rw [show out.length + L = (data.take (pos + L)).length by
            (simp only [List.length_take]; omega)]
          have ihinst := ih (pos + L) (data.take (pos + L)) []
            (E ++ emitCopy L (out.length - Pz.toNat - 1))
            (by simp) (by omega) (by simp) (by omega) f1
            (by simp only [List.length_append] at hfD; omega)
          simp only [List.append_nil] at ihinst
          rw [List.append_assoc] at ihinst
          rw [show E.length + (emitCopy L (out.length - Pz.toNat - 1)).length =
              (E ++ emitCopy L (out.length - Pz.toNat - 1)).length by simp]
          rw [ihinst]
          simp only [Except.ok.injEq, Prod.mk.injEq, List.length_append, true_and]
          omega
        · have hc1 : 1 ≤ lit.length := List.length_pos.mpr hnil
          have hfllen : (flushLiterals lit).length = lit.length + 1 := by
            rw [flushLiterals_small lit hnil (by omega)]; simp
          obtain ⟨f1, rfl⟩ : ∃ f1, fD = f1 + 1 := ⟨fD - 1, by
            simp only [List.length_append, hfllen] at hfD; omega⟩
          rw [List.append_assoc (flushLiterals lit)] at hfD ⊢
          rw [decomp_flush_step E lit _ data.length f1 out hnil (by omega) (by omega)]
          obtain ⟨f2, rfl⟩ : ∃ f2, f1 = f2 + 1 := ⟨f1 - 1, by
            simp only [List.length_append, hfllen] at hfD; omega⟩
          rw [← List.append_assoc E (flushLiterals lit)]
          rw [show E.length + lit.length + 1 = (E ++ flushLiterals lit).length by
            (simp only [List.length_append, hfllen]; omega)]
          rw [show out.length + lit.length = (out ++ lit).length by simp]
          rw [decomp_emit_step (E ++ flushLiterals lit) _ data.length f2 (out ++ lit)
            L ((out ++ lit).length - Pz.toNat - 1) hb hO
            (by simp; omega) (by simp; omega) (by simp; omega)]
          rw [show (out ++ lit).length - ((out ++ lit).length - Pz.toNat - 1) - 1 =
              Pz.toNat by simp; omega]
          rw [hslice]
          rw [show (out ++ lit) ++ (data.drop pos).take L = data.take (pos + L) by
            rw [hol, ← List.take_add]]
          rw [show data.length - ((out ++ lit).length + L) =
              data.length - (data.take (pos + L)).length by
            (simp only [List.length_take, List.length_append]; omega)]
          rw [show (out ++ lit).length + L = (data.take (pos + L)).length by
            (simp only [List.length_take, List.length_append]; omega)]
          have ihinst := ih (pos + L) (data.take (pos + L)) []
            ((E ++ flushLiterals lit) ++ emitCopy L ((out ++ lit).length - Pz.toNat - 1))
            (by simp) (by omega) (by simp) (by omega) f2
            (by simp only [List.length_append, hfllen] at hfD; omega)
          simp only [List.append_nil] at ihinst
          rw [List.append_assoc (E ++ flushLiterals lit)] at ihinst
          rw [show (E ++ flushLiterals lit).length +
              (emitCopy L ((out ++ lit).length - Pz.toNat - 1)).length =
              ((E ++ flushLiterals lit) ++
                emitCopy L ((out ++ lit).length - Pz.toNat - 1)).length by
            simp only [List.length_append]]
          rw [ihinst]
          simp only [Except.ok.injEq, Prod.mk.injEq, List.length_append, hfllen, true_and]
          omega
      case neg =>
        have hunf : encLoop data (fe + 1) pos [] out lit =
            encLoop data fe (pos + 1) (litStep data pos [] out lit).1
              (litStep data pos [] out lit).2.1 (litStep data pos [] out lit).2.2 := by
          simp only [encLoop]
          rw [if_pos hpos2]
          by_cases hb : 3 ≤ (matchSearch5 out data pos).1
          · rw [if_pos hb, if_neg (fun hcc => hcommit ⟨hb, hcc⟩)]
          · rw [if_neg hb]
        by_cases hfull : 16 ≤ lit.length + 1
        · -- the appended byte fills the literal buffer: flush now
          have hsval : litStep data pos [] out lit =
              (flushLiterals (lit ++ [data.getD pos 0]),
               out ++ (lit ++ [data.getD pos 0]), []) := by
            simp only [litStep]
            rw [if_pos (by simp; omega)]
            simp
          have hs1 : (litStep data pos [] out lit).1 =
              flushLiterals (lit ++ [data.getD pos 0]) := by rw [hsval]
          have hs21 : (litStep data pos [] out lit).2.1 =
              out ++ (lit ++ [data.getD pos 0]) := by rw [hsval]
          have hs22 : (litStep data pos [] out lit).2.2 = [] := by rw [hsval]
          rw [hunf, hs1, hs21, hs22] at hfD ⊢
          rw [encLoop_accum data fe (pos + 1) (flushLiterals (lit ++ [data.getD pos 0]))
            _ _] at hfD ⊢
          have h16 : (lit ++ [data.getD pos 0]).length = 16 := by simp; omega
          have hflen : (flushLiterals (lit ++ [data.getD pos 0])).length = 17 := by
            rw [flushLiterals_small _ (by simp) (by omega)]
            simp
            omega
          obtain ⟨f1, rfl⟩ : ∃ f1, fD = f1 + 1 := ⟨fD - 1, by
            simp only [List.length_append, hflen] at hfD; omega⟩
          rw [decomp_flush_step E (lit ++ [data.getD pos 0]) _ data.length f1 out
            (by simp) (by omega) (by omega)]
          have hol2 : out ++ (lit ++ [data.getD pos 0]) = data.take (pos + 1) := by
            rw [← List.append_assoc, hol, take_succ_getD data pos hpos2]
          have ihinst := ih (pos + 1) (out ++ (lit ++ [data.getD pos 0])) []
            (E ++ flushLiterals (lit ++ [data.getD pos 0]))
            (by rw [hol2]; simp) (by omega) (by simp) (by omega) f1
            (by simp only [List.length_append, hflen] at hfD; omega)
          simp only [List.append_nil] at ihinst
          rw [List.append_assoc] at ihinst
          rw [show E.length + (lit ++ [data.getD pos 0]).length + 1 =
              (E ++ flushLiterals (lit ++ [data.getD pos 0])).length by
            simp only [List.length_append, hflen, h16]]
          rw [show out.length + (lit ++ [data.getD pos 0]).length =
              (out ++ (lit ++ [data.getD pos 0])).length by simp]
          rw [ihinst]
          simp only [Except.ok.injEq, Prod.mk.injEq, List.length_append, hflen, true_and]
          omega
        · -- the byte is buffered; compressed stream and decoder state unchanged
          have hsval : litStep data pos [] out lit =
              ([], out, lit ++ [data.getD pos 0]) := by
            simp only [litStep]
            rw [if_neg (by simp; omega)]
          rw [hunf, hsval] at hfD ⊢
          have hol2 : out ++ (lit ++ [data.getD pos 0]) = data.take (pos + 1) := by
            rw [← List.append_assoc, hol, take_succ_getD data pos hpos2]
          exact ih (pos + 1) out (lit ++ [data.getD pos 0]) E hol2 (by omega)
            (by simp; omega) (by omega) fD hfD

/-- C1: for every byte sequence `S` of at most 65535 bytes, compression
succeeds and decompressing `compress_data S` returns exactly `S` together
with the reported compressed size (which is the whole stream). -/
theorem compress_decompress_roundtrip (S : List Nat) (hbytes : isBytes S)
    (hlen : S.length ≤ 65535) :
    ∃ c, compress_data S = .ok c ∧ decompress_data c = .ok (S, c.length) := by
  have hok : compress_data S = .ok (encLoop S (S.length + 1) 0
      [S.length % 256, S.length / 256] [] []) := by
    simp only [compress_data]
    rw [if_neg (by omega)]
  refine ⟨_, hok, ?_⟩
  rw [encLoop_accum S (S.length + 1) 0 [S.length % 256, S.length / 256] [] []]
  rcases Nat.eq_zero_or_pos S.length with hz | hpos
  · have hSnil : S = [] := List.length_eq_zero.mp hz
    subst hSnil
    decide
  · have hsim := encLoop_sim S (S.length + 1) 0 [] [] []
      (by simp) (by omega) (by simp) (by omega)
      ((encLoop S (S.length + 1) 0 [] [] []).length + 1) (by omega)
    simp only [List.nil_append, List.length_nil, Nat.sub_zero, Nat.zero_add,
      List.length_replicate] at hsim
    simp only [decompress_data]
    rw [if_neg (by simp)]
    rw [show ([S.length % 256, S.length / 256] ++
        encLoop S (S.length + 1) 0 [] [] []).getD 0 0 +
        ([S.length % 256, S.length / 256] ++
          encLoop S (S.length + 1) 0 [] [] []).getD 1 0 * 256 = S.length by
      (rw [List.getD_append _ _ _ _ (by simp), List.getD_append _ _ _ _ (by simp)]
       show S.length % 256 + S.length / 256 * 256 = S.length
       omega)]
    rw [if_neg (by omega)]
    rw [List.drop_left' (by simp)]
    rw [hsim]
    simp [List.take_length]

/-- Witness for `compress_decompress_roundtrip` at `S = [1, 2, 3]`. -/
theorem compress_decompress_roundtrip_witness :
    ∃ c, compress_data [1, 2, 3] = .ok c ∧
      decompress_data c = .ok ([1, 2, 3], c.length) :=
  compress_decompress_roundtrip [1, 2, 3] (by decide) (by decide)



/-- `litOnlyAux` is insensitive to the fuel as long as it covers the list. -/
theorem litOnlyAux_mono : ∀ (f1 : Nat) (l : List Nat) (f2 : Nat),
    l.length ≤ f1 → l.length ≤ f2 → litOnlyAux f1 l = litOnlyAux f2 l := by
  intro f1
  induction f1 with
  | zero =>
    intro l f2 h1 _
    have hl : l = [] := List.eq_nil_of_length_eq_zero (by omega)
    subst hl
    cases f2 <;> rfl
  | succ f ih =>
    intro l f2 h1 h2
    match l with
    | [] => cases f2 <;> rfl
    | c :: rest =>
      obtain ⟨g, rfl⟩ : ∃ g, f2 = g + 1 := ⟨f2 - 1, by simp at h2; omega⟩
      simp only [litOnlyAux]
      split
      · exact ih (rest.drop (c - 0xE0 + 1)) g
          (by simp only [List.length_drop]; simp at h1; omega)
          (by simp only [List.length_drop]; simp at h2; omega)
      · rfl

/-- Consuming one well-formed ShortLiteral chunk from the front of the
checked byte list. -/
theorem litOnly_chunk (chunk rest : List Nat) (h1 : chunk ≠ [])
    (h16 : chunk.length ≤ 16) :
    litOnly (((0xE0 + (chunk.length - 1)) :: chunk) ++ rest) = litOnly rest := by
  have hc1 : 1 ≤ chunk.length := List.length_pos.mpr h1
  rw [List.cons_append]
  unfold litOnly
  rw [List.length_cons]
  simp only [litOnlyAux]
  have hcond : (decide (0xE0 ≤ 0xE0 + (chunk.length - 1)) &&
      decide (0xE0 + (chunk.length - 1) ≤ 0xEF) &&
      decide (0xE0 + (chunk.length - 1) - 0xE0 + 1 ≤ (chunk ++ rest).length)) = true := by
    simp only [List.length_append, Bool.and_eq_true, decide_eq_true_eq]
    refine ⟨⟨by omega, by omega⟩, by omega⟩
  rw [if_pos hcond]
  rw [show 0xE0 + (chunk.length - 1) - 0xE0 + 1 = chunk.length by omega]
  rw [List.drop_left]
  exact litOnlyAux_mono _ rest _ (by simp only [List.length_append]; omega) (le_refl _)

/-- Final flush at end of input: length accounting and literal-only shape. -/
theorem flush_final_litOnly (data : List Nat) (pos : Nat) (out lit : List Nat)
    (hol : out ++ lit = data.take pos) (hpn : pos = data.length)
    (hlit : lit.length ≤ 15) :
    (flushLiterals lit).length
        = (data.length - out.length) + (data.length - out.length + 15) / 16
      ∧ ∀ rest, litOnly (flushLiterals lit ++ rest) = litOnly rest := by
  have hk : out.length + lit.length = pos := by
    have := congrArg List.length hol
    simp [List.length_take] at this
    omega
  rcases Decidable.em (lit = []) with hnil | hnil
  · subst hnil
    simp only [List.length_nil, Nat.add_zero] at hk
    constructor
    · simp only [flushLiterals_nil, List.length_nil]
      omega
    · intro rest
      rw [flushLiterals_nil, List.nil_append]
  · have hc1 : 1 ≤ lit.length := List.length_pos.mpr hnil
    have hfl := flushLiterals_small lit hnil (by omega)
    constructor
    · rw [hfl]
      simp only [List.length_cons]
      omega
    · intro rest
      rw [hfl]
      exact litOnly_chunk lit rest hnil (by omega)

/-- Main induction for literal-only compression: when no length-≥3 match
against earlier data exists, every emitted instruction is a ShortLiteral and
the emitted length is `(n - |out|) + ⌈(n - |out|)/16⌉`. -/
theorem encLoop_litOnly (data : List Nat)
    (H : ∀ p < data.length, ∀ q < data.length, p + 3 ≤ q → q + 3 ≤ data.length →
      (data.drop p).take 3 ≠ (data.drop q).take 3) :
    ∀ (fuel pos : Nat) (out lit : List Nat),
      out ++ lit = data.take pos → pos ≤ data.length →
      lit.length ≤ 15 → data.length ≤ pos + fuel →
      (encLoop data fuel pos [] out lit).length
          = (data.length - out.length) + (data.length - out.length + 15) / 16
        ∧ ∀ rest, litOnly (encLoop data fuel pos [] out lit ++ rest) = litOnly rest := by
  intro fuel
  induction fuel with
  | zero =>
    intro pos out lit hol hpos hlit hfe
    have hpn : pos = data.length := by omega
    have hunf : encLoop data 0 pos [] out lit = flushLiterals lit := by
      simp [encLoop]
    rw [hunf]
    exact flush_final_litOnly data pos out lit hol hpn hlit
  | succ f ih =>
    intro pos out lit hol hpos hlit hfe
    by_cases hpos2 : pos < data.length
    case neg =>
      have hpn : pos = data.length := by omega
      have hunf : encLoop data (f + 1) pos [] out lit = flushLiterals lit := by
        simp only [encLoop]
        rw [if_neg hpos2]
        simp
      rw [hunf]
      exact flush_final_litOnly data pos out lit hol hpn hlit
    case pos =>
      have hk : out.length + lit.length = pos := by
        have := congrArg List.length hol
        simp [List.length_take] at this
        omega
      have hout_pref : out = data.take out.length := by
        have h1 : (data.take pos).take out.length = out := by
          rw [← hol]; exact List.take_left out lit
        rw [List.take_take] at h1
        rw [show out.length ⊓ pos = out.length by omega] at h1
        exact h1.symm
      have hsub : ∀ m, m < out.length → out.getD m 0 = data.getD m 0 := by
        intro m hm
        conv_lhs => rw [hout_pref]
        exact getD_take data out.length m hm
      have h3 : ¬ 3 ≤ (matchSearch5 out data pos).1 := by
        intro h3
        obtain ⟨hP0, hPL, hL263, hposL, hmatch⟩ := matchSearch5_sound out data pos h3
        have hq3 : pos + 3 ≤ data.length := by omega
        refine H (matchSearch5 out data pos).2.toNat (by omega) pos (by omega)
          (by omega) hq3 ?_
        apply slice_eq_slice data data _ pos 3 (by omega) hq3
        intro j hj
        rw [← hsub ((matchSearch5 out data pos).2.toNat + j) (by omega)]
        exact hmatch j (by omega)
      have hunf : encLoop data (f + 1) pos [] out lit =
          encLoop data f (pos + 1) (litStep data pos [] out lit).1
            (litStep data pos [] out lit).2.1 (litStep data pos [] out lit).2.2 := by
        simp only [encLoop]
        rw [if_pos hpos2, if_neg h3]
      have hol2 : out ++ (lit ++ [data.getD pos 0]) = data.take (pos + 1) := by
        rw [← List.append_assoc, hol, take_succ_getD data pos hpos2]
      by_cases hfull : 16 ≤ lit.length + 1
      · have hsval : litStep data pos [] out lit =
            (flushLiterals (lit ++ [data.getD pos 0]),
             out ++ (lit ++ [data.getD pos 0]), []) := by
          simp only [litStep]
          rw [if_pos (by simp; omega)]
          simp
        have hs1 : (litStep data pos [] out lit).1 =
            flushLiterals (lit ++ [data.getD pos 0]) := by rw [hsval]
        have hs21 : (litStep data pos [] out lit).2.1 =
            out ++ (lit ++ [data.getD pos 0]) := by rw [hsval]
        have hs22 : (litStep data pos [] out lit).2.2 = [] := by rw [hsval]
        rw [hunf, hs1, hs21, hs22]
        rw [encLoop_accum data f (pos + 1) (flushLiterals (lit ++ [data.getD pos 0]))
          (out ++ (lit ++ [data.getD pos 0])) []]
        have h16 : (lit ++ [data.getD pos 0]).length = 16 := by simp; omega
        have hflen : (flushLiterals (lit ++ [data.getD pos 0])).length = 17 := by
          rw [flushLiterals_small _ (by simp) (by omega)]
          simp only [List.length_cons, h16]
        obtain ⟨ihlen, ihlit⟩ := ih (pos + 1) (out ++ (lit ++ [data.getD pos 0])) []
          (by rw [hol2]; simp) (by omega) (by simp) (by omega)
        have hbig : (out ++ (lit ++ [data.getD pos 0])).length = out.length + 16 := by
          simp
          omega
        constructor
        · rw [List.length_append, hflen, ihlen, hbig]
          omega
        · intro rest
          rw [List.append_assoc]
          rw [flushLiterals_small (lit ++ [data.getD pos 0]) (by simp) (by omega)]
          rw [show (lit ++ [data.getD pos 0]).length = 16 from h16]
          rw [show ((0xE0 + (16 - 1) : Nat) :: (lit ++ [data.getD pos 0])) ++
              (encLoop data f (pos + 1) [] (out ++ (lit ++ [data.getD pos 0])) [] ++ rest) =
              ((0xE0 + ((lit ++ [data.getD pos 0]).length - 1) : Nat) ::
                (lit ++ [data.getD pos 0])) ++
              (encLoop data f (pos + 1) [] (out ++ (lit ++ [data.getD pos 0])) [] ++ rest) by
            rw [h16]]
          rw [litOnly_chunk (lit ++ [data.getD pos 0]) _ (by simp) (by omega)]
          exact ihlit rest
      · have hsval : litStep data pos [] out lit =
            ([], out, lit ++ [data.getD pos 0]) := by
          simp only [litStep]
          rw [if_neg (by simp; omega)]
        have hs1 : (litStep data pos [] out lit).1 = [] := by rw [hsval]
        have hs21 : (litStep data pos [] out lit).2.1 = out := by rw [hsval]
        have hs22 : (litStep data pos [] out lit).2.2 =
            lit ++ [data.getD pos 0] := by rw [hsval]
        rw [hunf, hs1, hs21, hs22]
        exact ih (pos + 1) out (lit ++ [data.getD pos 0]) hol2 (by omega)
          (by simp; omega) (by omega)

/-- C8: on input without repeated 3-byte runs, compression is all
ShortLiterals and the size is exactly 2 + ceil(n/16) + n. -/
theorem literal_only_compression (data : List Nat) (hlen : data.length ≤ 65535)
    (H : ∀ p < data.length, ∀ q < data.length, p + 3 ≤ q → q + 3 ≤ data.length →
      (data.drop p).take 3 ≠ (data.drop q).take 3) :
    ∃ c, compress_data data = .ok c ∧
      c.length = 2 + (data.length + 15) / 16 + data.length ∧
      litOnly (c.drop 2) = true := by
  have hok : compress_data data = .ok (encLoop data (data.length + 1) 0
      [data.length % 256, data.length / 256] [] []) := by
    simp only [compress_data]
    rw [if_neg (by omega)]
  have hE := encLoop_accum data (data.length + 1) 0
    [data.length % 256, data.length / 256] [] []
  obtain ⟨hlenF, hlitF⟩ := encLoop_litOnly data H (data.length + 1) 0 [] []
    (by simp) (by omega) (by simp) (by omega)
  simp only [List.length_nil, Nat.sub_zero] at hlenF
  refine ⟨_, hok, ?_, ?_⟩
  · rw [hE, List.length_append, hlenF]
    simp only [List.length_cons, List.length_nil]
    omega
  · rw [hE, List.drop_left' (by simp)]
    have hfin := hlitF []
    rw [List.append_nil] at hfin
    rw [hfin]
    rfl

/-- Witness for `literal_only_compression` at an 8-byte strictly increasing
input (no 3-byte substring recurs). -/
theorem literal_only_compression_witness :
    ∃ c, compress_data [10, 11, 12, 13, 14, 15, 16, 17] = .ok c ∧
      c.length = 2 + (([10, 11, 12, 13, 14, 15, 16, 17] : List Nat).length + 15) / 16 +
        ([10, 11, 12, 13, 14, 15, 16, 17] : List Nat).length ∧
      litOnly (c.drop 2) = true :=
  literal_only_compression [10, 11, 12, 13, 14, 15, 16, 17] (by decide) (by decide)

end HK97
